import Mathlib

/-!
Verification development for the table-reconstruction core of the repository
(`src/api/ocr.ts`).  The functions `isValidNumber`, `cleanNumericValue`,
`interpolateValue`, `parseTextToTable` and `createEmptyTable` are embedded
shallowly: strings are lists of characters, JavaScript numbers are modelled as
exact rationals, represented as unnormalised integer fractions (`Frac`) so
that every computation reduces inside the kernel; every consumer of a
`Frac` (flooring, ordering, digit rendering) depends only on the rational
value it denotes.  JavaScript `parseFloat` / `toFixed` / `Math.round`
operate on IEEE doubles; the exact-rational model coincides with the
double semantics on all inputs appearing in the claims (small decimal numbers
whose arithmetic is exact in binary64) and differs only on pathological
inputs (magnitudes beyond 1e308, or rounding at a sub-ulp boundary).
All definitions are structurally recursive so that concrete runs evaluate by
`decide` / `rfl`.
-/

set_option maxRecDepth 4000

/-- Strings are modelled as lists of characters. -/
abbrev Str := List Char

/-- A table cell, mirroring the TypeScript `TableCell` record
(`{ value: string, interpolated: boolean }`; the optional `missingRow`
field is never written by the parsing core and is omitted). -/
structure TableCell where
  value : Str
  interpolated : Bool
deriving DecidableEq, Repr

/-- The grid the TypeScript code manipulates between normalisation and
interpolation: `(TableCell | null)[][]`. -/
abbrev Grid := List (List (Option TableCell))

/-- An exact rational, kept as an unnormalised fraction of integers.
All operations below are exact on the denoted value; denominators stay
non-zero on every path the theorems speak about. -/
structure Frac where
  num : Int
  den : Int
deriving DecidableEq, Repr

namespace Frac

/-- Embed a natural number. -/
def ofNat (n : Nat) : Frac := ⟨(n : Int), 1⟩

def add (a b : Frac) : Frac := ⟨a.num * b.den + b.num * a.den, a.den * b.den⟩

def sub (a b : Frac) : Frac := ⟨a.num * b.den - b.num * a.den, a.den * b.den⟩

def mul (a b : Frac) : Frac := ⟨a.num * b.num, a.den * b.den⟩

def div (a b : Frac) : Frac := ⟨a.num * b.den, a.den * b.num⟩

def neg (a : Frac) : Frac := ⟨-a.num, a.den⟩

/-- `0 < a` on the denoted value (for non-zero denominators). -/
def isPos (a : Frac) : Bool := decide (0 < a.num * a.den)

/-- `⌊a⌋` on the denoted value. -/
def floor (a : Frac) : Int :=
  if a.den < 0 then Int.fdiv (-a.num) (-a.den) else Int.fdiv a.num a.den

end Frac

/-- JavaScript whitespace (`\s`) restricted to the characters that can occur
in this code's inputs (the code splits on `"\n"` first; Unicode spaces are
not modelled). -/
def isWS (c : Char) : Bool :=
  c = ' ' || c = '\t' || c = '\n' || c = '\r' || c = '\x0b' || c = '\x0c'

/-- Decimal digit test (`\d` = `[0-9]`). -/
def isDigitCh (c : Char) : Bool :=
  '0' ≤ c && c ≤ '9'

/-- Numeric value of a decimal digit character. -/
def digitVal (c : Char) : Nat := c.toNat - 48

/-- The natural number denoted by a list of decimal digits. -/
def natOfDigits (ds : Str) : Nat :=
  ds.foldl (fun a c => 10 * a + digitVal c) 0

/-- JavaScript `String.prototype.trim`. -/
def trimStr (s : Str) : Str :=
  ((s.dropWhile isWS).reverse.dropWhile isWS).reverse

/-- `text.split(sep)` for a single-character separator (used for
`text.split("\n")` and `str.split(".")`). -/
def splitOnChar (sep : Char) : Str → List Str
  | [] => [[]]
  | c :: rest =>
    if c = sep then [] :: splitOnChar sep rest
    else
      match splitOnChar sep rest with
      | t :: ts => (c :: t) :: ts
      | [] => [[c]]

/-- Prepend a character to the first piece of a split result. -/
def consHead (c : Char) : List Str → List Str
  | t :: ts => (c :: t) :: ts
  | [] => [[c]]

/-- Prepend a string to the first piece of a split result. -/
def appendHead (xs : Str) : List Str → List Str
  | t :: ts => (xs ++ t) :: ts
  | [] => [xs]

/-- `str.split(/p+/)`: split on maximal runs of characters satisfying `p`
(JavaScript semantics: a separator run at either end produces an empty
piece).  Used for `split(/\s+/)` and `split(/[,\s]+/)`. -/
def splitSepRuns (p : Char → Bool) : Str → List Str
  | [] => [[]]
  | [c] => if p c then [[], []] else [[c]]
  | c :: d :: rest =>
    if p c then
      if p d then splitSepRuns p (d :: rest)
      else [] :: splitSepRuns p (d :: rest)
    else consHead c (splitSepRuns p (d :: rest))

/-- A whitespace run separates under Strategy A iff it has two or more
characters (the greedy `\s{2,}` alternative consumes the whole run) or
contains a tab (then either `\s{2,}` or the `\t` alternative matches). -/
def sepRunA (run : Str) : Bool := decide (2 ≤ run.length) || run.contains '\t'

/-- Scanner for `line.split(/\s{2,}|\t/)` (tokenisation "Strategy A").
`curTok` holds the reversed current token, `run` the reversed pending
whitespace run whose status (separator or literal) is not yet decided. -/
def splitAAux (curTok run : Str) : Str → List Str
  | [] =>
    if run ≠ [] && sepRunA run then [curTok.reverse, []]
    else [(run ++ curTok).reverse]
  | c :: rest =>
    if isWS c then splitAAux curTok (c :: run) rest
    else if run = [] then splitAAux (c :: curTok) [] rest
    else if sepRunA run then curTok.reverse :: splitAAux [c] [] rest
    else splitAAux (c :: (run ++ curTok)) [] rest

/-- `line.split(/\s{2,}|\t/)`. -/
def splitACells (s : Str) : List Str := splitAAux [] [] s

/-- Parse a maximal run of decimal digits together with the rest. -/
def takeDigits (s : Str) : Str × Str :=
  (s.takeWhile isDigitCh, s.dropWhile isDigitCh)

/-- The mantissa part of JavaScript `parseFloat`: an unsigned decimal
literal `digits [. digits?] | . digits` read as the longest valid
prefix; returns its exact rational value and the unread rest. -/
def mantissaOf (s : Str) : Option (Frac × Str) :=
  let ip := s.takeWhile isDigitCh
  let r1 := s.dropWhile isDigitCh
  match r1 with
  | '.' :: r2 =>
    let fp := r2.takeWhile isDigitCh
    if ip = [] && fp = [] then none
    else some (⟨(natOfDigits ip : Int) * (10 : Int) ^ fp.length + (natOfDigits fp : Int),
                (10 : Int) ^ fp.length⟩,
               r2.dropWhile isDigitCh)
  | _ => if ip = [] then none else some (Frac.ofNat (natOfDigits ip), r1)

/-- The exponent suffix of `parseFloat` (`[eE][+-]?digits`); `none` when the
suffix is absent or malformed (in which case `parseFloat` backtracks and
keeps only the mantissa). -/
def expSuffixOf (s : Str) : Option ℤ :=
  match s with
  | 'e' :: rest => expDigits rest
  | 'E' :: rest => expDigits rest
  | _ => none
where
  /-- `[+-]?digits`, `none` if no digit follows. -/
  expDigits : Str → Option ℤ
  | '+' :: r => if r.takeWhile isDigitCh = [] then none else some (natOfDigits (r.takeWhile isDigitCh) : ℤ)
  | '-' :: r => if r.takeWhile isDigitCh = [] then none else some (-(natOfDigits (r.takeWhile isDigitCh) : ℤ))
  | r => if r.takeWhile isDigitCh = [] then none else some (natOfDigits (r.takeWhile isDigitCh) : ℤ)

/-- Multiply by a (possibly negative) power of ten. -/
def applyExp (m : Frac) (e : Int) : Frac :=
  if 0 ≤ e then m.mul ⟨(10 : Int) ^ e.toNat, 1⟩ else m.div ⟨(10 : Int) ^ (-e).toNat, 1⟩

/-- The optional leading sign of a `parseFloat` literal (`true` = minus)
and the rest. -/
def signSplit : Str → Bool × Str
  | '-' :: r => (true, r)
  | '+' :: r => (false, r)
  | s => (false, s)

/-- Apply the parsed sign. -/
def applySign (isNeg : Bool) (m : Frac) : Frac := if isNeg then m.neg else m

/-- JavaScript `parseFloat`, modelled exactly over the rationals: an
optional sign, a decimal mantissa and an optional exponent are read as the
longest valid prefix; `none` models `NaN`.  (The double overflow to
`Infinity` above ~1e308 is not modelled; `isValidNumber` therefore differs
from the JavaScript original only on numerals of more than 308 digits.) -/
def parseFloatQ (s : Str) : Option Frac :=
  match mantissaOf (signSplit s).2 with
  | none => none
  | some (m, r2) =>
    match expSuffixOf r2 with
    | some e => some (applySign (signSplit s).1 (applyExp m e))
    | none => some (applySign (signSplit s).1 m)

/-- `value.replace(/[,\s]/g, "")`: remove every comma and whitespace. -/
def stripCommaWs (s : Str) : Str :=
  s.filter (fun c => !(c = ',' || isWS c))

/-- `cleanNumericValue` (ocr.ts line 27): strip commas/whitespace everywhere,
then leading hyphens (`^-+`) and trailing hyphen/space noise (`[\-\s]+$`;
after the first replace no whitespace remains, so only hyphens). -/
def cleanNumericValue (s : Str) : Str :=
  (((stripCommaWs s).dropWhile (· = '-')).reverse.dropWhile (· = '-')).reverse

/-- `isValidNumber` (ocr.ts line 21): the cleaned value parses as a finite
number. -/
def isValidNumber (s : Str) : Bool :=
  (parseFloatQ (cleanNumericValue s)).isSome

/-- JavaScript `Math.round`: round half towards +∞. -/
def roundJS (q : Frac) : Int := (q.add ⟨1, 2⟩).floor

/-- Decimal digits of a natural number. -/
def natDigits (n : Nat) : Str := Nat.toDigits 10 n

/-- JavaScript `Number.prototype.toString` for integer values. -/
def intToStr (n : ℤ) : Str :=
  if n < 0 then '-' :: natDigits n.natAbs else natDigits n.natAbs

/-- `str.padStart(n, "0")`. -/
def padStartZeros (s : Str) (n : Nat) : Str :=
  List.replicate (n - s.length) '0' ++ s

/-- JavaScript `Number.prototype.toFixed(d)` over ℚ: the integer `n`
minimising `|n / 10^d - x|` (ties to the larger `n`), rendered with exactly
`d` digits after the point. -/
def toFixedQ (x : Frac) (d : Nat) : Str :=
  let n : Int := ((x.mul ⟨(10 : Int) ^ d, 1⟩).add ⟨1, 2⟩).floor
  if d = 0 then intToStr n
  else
    let ds := padStartZeros (natDigits n.natAbs) (d + 1)
    (if n < 0 then ['-'] else []) ++ ds.take (ds.length - d) ++ '.' :: ds.drop (ds.length - d)

/-- `str.includes(".")`. -/
def includesDot (s : Str) : Bool := s.contains '.'

/-- `str.includes(".") ? str.split(".")[1]?.length || 0 : 0` — the apparent
number of decimal places of a numeric string (ocr.ts lines 64-73). -/
def decimalsOf (s : Str) : Nat :=
  if includesDot s then
    match splitOnChar '.' s with
    | _ :: x :: _ => x.length
    | _ => 0
  else 0

/-- `str.startsWith("0")`. -/
def startsWithZero (s : Str) : Bool :=
  match s with
  | '0' :: _ => true
  | _ => false

/-! ## The grid and `interpolateValue` (ocr.ts lines 32-215) -/

/-- Read `data[r][c]` with JavaScript truthiness for the guards: `none`
stands both for an out-of-bounds access (`undefined`) and for a `null`
cell, which the code treats identically. -/
def getCell (g : Grid) (r c : Nat) : Option TableCell :=
  ((g[r]?.getD [])[c]?).join

/-- The part of a grid the interpolation lookups can observe: the value of
each non-interpolated cell (`null`, missing and `interpolated` cells are all
invisible). -/
def srcView (g : Grid) (r c : Nat) : Option Str :=
  match getCell g r c with
  | some cell => if cell.interpolated then none else some cell.value
  | none => none

/-- `anchor?.[i]` followed by the truthiness test the code applies to the
result (an absent array, an out-of-range index and an empty string are all
falsy). -/
def anchorAt (a : Option (List Str)) (i : Nat) : Option Str :=
  match a with
  | none => none
  | some l =>
    match l[i]? with
    | some v => if v = [] then none else some v
    | none => none

/-- The upward scan of ocr.ts lines 120-126: the nearest row `i < n` whose
cell is present and not interpolated, together with that cell's value. -/
def findAbove (g : Grid) (c : Nat) : Nat → Option (Nat × Str)
  | 0 => none
  | n + 1 =>
    match getCell g n c with
    | some cell => if cell.interpolated then findAbove g c n else some (n, cell.value)
    | none => findAbove g c n

/-- The downward scan of ocr.ts lines 129-135, with explicit fuel
(`fuel = data.length - i` at the call site): the nearest row `≥ i` whose
cell is present and not interpolated. -/
def findBelowFuel (g : Grid) (c : Nat) : Nat → Nat → Option (Nat × Str)
  | _, 0 => none
  | i, fuel + 1 =>
    match getCell g i c with
    | some cell => if cell.interpolated then findBelowFuel g c (i + 1) fuel else some (i, cell.value)
    | none => findBelowFuel g c (i + 1) fuel

/-- The downward scan from `rowIndex + 1` to the end of the grid. -/
def findBelow (g : Grid) (c rowIndex : Nat) : Option (Nat × Str) :=
  findBelowFuel g c (rowIndex + 1) (g.length - (rowIndex + 1))

/-- `above = data[i][colIndex]?.value || null`: an empty string found by the
scan is converted to `null` by the `||`. -/
def truthyVal (r : Option (Nat × Str)) : Option Str :=
  r.bind (fun p => if p.2 = [] then none else some p.2)

/-- Neighbour-pair formatting, ocr.ts lines 143-185: linear interpolation
between `above` (at row `aIdx`) and `below` (at row `bIdx`), keeping the
neighbours' decimal places, or zero-padding when a neighbour string starts
with `0`. -/
def pairFormat (aStr bStr : Str) (aNum bNum : Frac) (aIdx bIdx rowIndex : Nat) : Str :=
  let aT := trimStr aStr
  let bT := trimStr bStr
  let isDec := includesDot aT || includesDot bT
  let dp := if isDec then max (decimalsOf aT) (decimalsOf bT) else 0
  let progress : Frac :=
    ((Frac.ofNat rowIndex).sub (Frac.ofNat aIdx)).div ((Frac.ofNat bIdx).sub (Frac.ofNat aIdx))
  let iv := aNum.add ((bNum.sub aNum).mul progress)
  if isDec then toFixedQ iv dp
  else
    let intValue := roundJS iv
    let aI := intToStr (roundJS aNum)
    let bI := intToStr (roundJS bNum)
    let maxLen := max aI.length bI.length
    if 1 < maxLen ∧ (startsWithZero aT || startsWithZero bT) then
      padStartZeros (intToStr intValue) maxLen
    else intToStr intValue

/-- Anchor-pair formatting, ocr.ts lines 55-109: linear interpolation by row
position between the two anchors, keeping the anchors' decimal places;
integers are zero-padded only when both anchors are positive and the first
anchor's rounded value has strictly more digits than the last's (and more
than one digit). -/
def anchorPairFmt (f l : Str) (fn ln : Frac) (rowIndex totalRows : Nat) : Str :=
  let fS := trimStr f
  let lS := trimStr l
  let isDec := includesDot fS || includesDot lS
  let dp := if isDec then max (decimalsOf fS) (decimalsOf lS) else 0
  let progress : Frac := (Frac.ofNat rowIndex).div ((Frac.ofNat totalRows).sub (Frac.ofNat 1))
  let iv := fn.add ((ln.sub fn).mul progress)
  if isDec then toFixedQ iv dp
  else
    let intValue := roundJS iv
    if fn.isPos && ln.isPos then
      let fi := intToStr (roundJS fn)
      let li := intToStr (roundJS ln)
      if li.length < fi.length ∧ 1 < fi.length then
        padStartZeros (intToStr intValue) fi.length
      else intToStr intValue
    else intToStr intValue

/-- The fallback chain of ocr.ts lines 194-214: first anchor if numeric
(cleaned), then last anchor if numeric (cleaned), then the raw `above`
value, then `below`, then `"0"`. -/
def afterPair (firstA lastA above below : Option Str) : Str :=
  match firstA with
  | some f =>
    if isValidNumber f then cleanNumericValue f
    else afterFirst lastA above below
  | none => afterFirst lastA above below
where
  afterFirst (lastA above below : Option Str) : Str :=
    match lastA with
    | some l =>
      if isValidNumber l then cleanNumericValue l
      else afterAnchors above below
    | none => afterAnchors above below
  afterAnchors (above below : Option Str) : Str :=
    match above with
    | some a => a
    | none =>
      match below with
      | some b => b
      | none => ['0']

/-- The traditional nearest-neighbour part of `interpolateValue`
(ocr.ts lines 113-214), reached when the anchor-pair branch does not fire. -/
def interpolateFallback (g : Grid) (rowIndex colIndex : Nat)
    (firstA lastA : Option Str) : Str :=
  let ar := findAbove g colIndex rowIndex
  let br := findBelow g colIndex rowIndex
  let above := truthyVal ar
  let below := truthyVal br
  let pairResult : Option Str :=
    match ar, br with
    | some (ai, av), some (bi, bv) =>
      if av ≠ [] && bv ≠ [] && isValidNumber av && isValidNumber bv then
        match parseFloatQ (cleanNumericValue av), parseFloatQ (cleanNumericValue bv) with
        | some an, some bn => some (pairFormat av bv an bn ai bi rowIndex)
        | _, _ => none
      else none
    | _, _ => none
  match pairResult with
  | some v => v
  | none => afterPair firstA lastA above below

/-- `interpolateValue` (ocr.ts lines 32-215). -/
def interpolateValue (g : Grid) (rowIndex colIndex : Nat)
    (firstRowAnchor lastRowAnchor : Option (List Str)) : Str :=
  let totalRows := g.length
  let firstAnchorValue := anchorAt firstRowAnchor colIndex
  let lastAnchorValue := anchorAt lastRowAnchor colIndex
  let anchorResult : Option Str :=
    match firstAnchorValue, lastAnchorValue with
    | some f, some l =>
      if isValidNumber f && isValidNumber l then
        match parseFloatQ (cleanNumericValue f), parseFloatQ (cleanNumericValue l) with
        | some fn, some ln => some (anchorPairFmt f l fn ln rowIndex totalRows)
        | _, _ => none
      else none
    | _, _ => none
  match anchorResult with
  | some v => v
  | none => interpolateFallback g rowIndex colIndex firstAnchorValue lastAnchorValue

/-! ## `parseTextToTable` and `createEmptyTable` (ocr.ts lines 218-440) -/

/-- Comma-or-whitespace, the separator class `[,\s]` used to parse anchor
rows. -/
def isAnchorSep (c : Char) : Bool := c = ',' || isWS c

/-- Parsing of a user-supplied anchor string (ocr.ts lines 233-247):
`values.split(/[,\s]+/).map(v => v.trim()).filter(v => v.length > 0)`,
guarded by the truthiness of the argument. -/
def parseAnchor (s : Option Str) : Option (List Str) :=
  match s with
  | none => none
  | some v =>
    if v = [] then none
    else some ((((splitSepRuns isAnchorSep v).map trimStr).filter (fun t => t ≠ [])))

/-- One line's cells under Strategy A
(`line.split(/\s{2,}|\t/).map(trim).filter(nonempty)`, ocr.ts lines 258-261). -/
def lineCellsA (l : Str) : List Str :=
  ((splitACells l).map trimStr).filter (fun t => t ≠ [])

/-- One line's cells under Strategy B
(`line.split(/\s+/).map(trim).filter(nonempty)`, ocr.ts lines 279-282). -/
def lineCellsB (l : Str) : List Str :=
  ((splitSepRuns isWS l).map trimStr).filter (fun t => t ≠ [])

/-- `text.split("\n").filter(line => line.trim().length > 0)` (ocr.ts
line 249). -/
def linesOf (text : Str) : List Str :=
  (splitOnChar '\n' text).filter (fun l => trimStr l ≠ [])

/-- The raw table produced by Strategy A (rows with no cells are not
pushed). -/
def strategyA (lines : List Str) : List (List Str) :=
  (lines.map lineCellsA).filter (fun r => r ≠ [])

/-- The raw table produced by Strategy B. -/
def strategyB (lines : List Str) : List (List Str) :=
  (lines.map lineCellsB).filter (fun r => r ≠ [])

/-- The tokeniser with its strategy selection (ocr.ts lines 249-288):
Strategy A first; if `maxColsFound < expectedCols * 0.7` its output is
discarded and every line is re-split by Strategy B.  `Math.max()` of an
empty list is `-Infinity`, which always selects Strategy B; with
`foldr max 0` and `expectedCols ≥ 1` the comparison `0 < 7 * expectedCols`
agrees (and when `expectedCols = 0` both strategies return the same empty
table).  The float comparison `maxColsFound < expectedCols * 0.7` agrees
with the exact rational `10 * maxColsFound < 7 * expectedCols` for every
`expectedCols ≤ 50` (the doubles `10·0.7, 20·0.7, …` round to exactly
`7, 14, …`, and otherwise the threshold is at least 0.1 away from any
integer, far beyond the double rounding error). -/
def rawTableOf (text : Str) (expectedCols : Nat) : List (List Str) :=
  let lines := linesOf text
  let a := strategyA lines
  let maxColsFound := (a.map List.length).foldr max 0
  if 10 * maxColsFound < 7 * expectedCols then strategyB lines else a

/-- `cellValue.match(/[\d.,]+/)`: the first maximal run of digits, dots and
commas, if any. -/
def firstNumericRun : Str → Option Str
  | [] => none
  | c :: rest =>
    if isDigitCh c || c = '.' || c = ',' then
      some (c :: rest.takeWhile (fun x => isDigitCh x || x = '.' || x = ','))
    else firstNumericRun rest

/-- Classification of one (possibly anchor-overridden) token into a cell or
an empty-marker (ocr.ts lines 342-371): numeric tokens and row-0 tokens are
kept trimmed; other rows fall back to salvaging a numeric substring; empty
or unsalvageable tokens become `null`. -/
def classifyCell (rowIndex : Nat) (cellValue : Option Str) : Option TableCell :=
  match cellValue with
  | none => none
  | some v =>
    if v ≠ [] ∧ trimStr v ≠ [] then
      if isValidNumber v then some ⟨trimStr v, false⟩
      else if rowIndex = 0 then some ⟨trimStr v, false⟩
      else
        match firstNumericRun v with
        | some m => if isValidNumber m then some ⟨trimStr m, false⟩ else none
        | none => none
    else none

/-- The token visible at `(rowIndex, colIndex)` after the anchor overrides
(ocr.ts lines 322-340): a first-row anchor beats the source token at row 0,
a last-row anchor beats it at row `targetRows - 1` (checked in that
order). -/
def effectiveCellValue (sourceRow : List Str) (targetRows rowIndex colIndex : Nat)
    (fa la : Option (List Str)) : Option Str :=
  match (if rowIndex = 0 then anchorAt fa colIndex else none) with
  | some a => some a
  | none =>
    match (if rowIndex = targetRows - 1 then anchorAt la colIndex else none) with
    | some a => some a
    | none => sourceRow[colIndex]?

/-- One normalised row (ocr.ts lines 316-374): exactly `targetCols` entries. -/
def normalizedRow (limited : List (List Str)) (targetRows targetCols rowIndex : Nat)
    (fa la : Option (List Str)) : List (Option TableCell) :=
  (List.range targetCols).map fun colIndex =>
    classifyCell rowIndex
      (effectiveCellValue (limited[rowIndex]?.getD []) targetRows rowIndex colIndex fa la)

/-- The normalised `targetRows × targetCols` grid before interpolation. -/
def buildNormalized (limited : List (List Str)) (targetRows targetCols : Nat)
    (fa la : Option (List Str)) : Grid :=
  (List.range targetRows).map fun r => normalizedRow limited targetRows targetCols r fa la

/-- Write a cell into the grid (in-bounds writes only; an out-of-bounds
index leaves the grid unchanged, which the caller never relies on). -/
def setCell (g : Grid) (r c : Nat) (v : Option TableCell) : Grid :=
  match g[r]? with
  | some row => g.set r (row.set c v)
  | none => g

/-- One step of the interpolation pass (ocr.ts lines 380-397): a `null`
cell is replaced by the interpolated value with `interpolated = true`;
present cells are left alone. -/
def fillStep (fa la : Option (List Str)) (g : Grid) : Nat × Nat → Grid
  | (r, c) =>
    match getCell g r c with
    | some _ => g
    | none => setCell g r c (some ⟨interpolateValue g r c fa la, true⟩)

/-- The row-major scan order of the interpolation pass. -/
def rowMajor (rows cols : Nat) : List (Nat × Nat) :=
  (List.range rows).flatMap fun r => (List.range cols).map fun c => (r, c)

/-- `createEmptyTable` (ocr.ts lines 413-440): a header row of
`"Column 1" … "Column N"` followed by `rows - 1` rows of empty strings,
everything flagged interpolated. -/
def createEmptyTable (cols rows : Nat) : List (List TableCell) :=
  ((List.range cols).map fun i => TableCell.mk ("Column ".data ++ natDigits (i + 1)) true)
  :: (List.range (rows - 1)).map fun _ =>
       (List.range cols).map fun _ => TableCell.mk [] true

/-- `parseTextToTable` (ocr.ts lines 218-410): tokenise, normalise to the
expected shape with anchor overrides, interpolate the `null` cells in
row-major order, and strip the (by then absent) `null`s. -/
def parseTextToTable (text : Str) (expectedCols expectedRows : Nat)
    (firstRowValues lastRowValues : Option Str) : List (List TableCell) :=
  let fa := parseAnchor firstRowValues
  let la := parseAnchor lastRowValues
  let rawTable := rawTableOf text expectedCols
  if rawTable = [] then createEmptyTable expectedCols expectedRows
  else
    let limited := rawTable.take expectedRows
    let normalized := buildNormalized limited expectedRows expectedCols fa la
    let filled := (rowMajor normalized.length expectedCols).foldl (fillStep fa la) normalized
    filled.map fun row => row.filterMap id

/-- The cell of the final table at `(r, c)`, if any. -/
def getFinal (t : List (List TableCell)) (r c : Nat) : Option TableCell :=
  t[r]?.bind fun row => row[c]?


/-! ## Infrastructure: indexed map, entries, `setCell` -/

/-- `List.map` with access to the index (own definition, structurally
recursive). -/
def idxMap (f : Nat → α → β) : Nat → List α → List β
  | _, [] => []
  | i, a :: as => f i a :: idxMap f (i + 1) as

/-! ## Derived definitions used by the theorems below -/

/-- The raw entry of the in-progress grid at `(r, c)`: `none` when out of
bounds, `some none` for a `null` cell, `some (some cell)` for a present
cell. -/
def entry? (g : Grid) (r c : Nat) : Option (Option TableCell) :=
  (g[r]?.getD [])[c]?

/-- What one entry of the normalised grid `g₀` becomes once every position
in `l` has been processed: present cells stay, `null` cells listed in `l`
are filled from `g₀`. -/
def resolveEntry (g₀ : Grid) (fa la : Option (List Str)) (l : List (Nat × Nat))
    (r c : Nat) : Option TableCell → Option TableCell
  | some x => some x
  | none => if (r, c) ∈ l then some ⟨interpolateValue g₀ r c fa la, true⟩ else none

/-- The order-free description of the interpolation pass over the position
list `l`. -/
def fillTarget (g₀ : Grid) (fa la : Option (List Str)) (l : List (Nat × Nat)) : Grid :=
  idxMap (fun r row => idxMap (fun c cell => resolveEntry g₀ fa la l r c cell) 0 row) 0 g₀

/-- The default cell used only to state `Option.getD` reductions. -/
def defaultCell : TableCell := ⟨[], false⟩

/-- The final value of the cell at `(r, c)`: the classified cell when the
source produced one, otherwise the value interpolated from the normalised
grid, flagged `interpolated`. -/
def resolvedCell (g : Grid) (fa la : Option (List Str)) (r c : Nat) : TableCell :=
  match getCell g r c with
  | some x => x
  | none => ⟨interpolateValue g r c fa la, true⟩

/-- The normalised grid `parseTextToTable` builds before interpolating. -/
def normalizedOf (text : Str) (cols rows : Nat) (fv lv : Option Str) : Grid :=
  buildNormalized ((rawTableOf text cols).take rows) rows cols (parseAnchor fv) (parseAnchor lv)

/-- Decomposition of a line into maximal runs, each tagged with whether it
is whitespace.  This is the claim-side vocabulary: "runs of two or more
whitespace characters or a tab". -/
def chunks : Str → List (Bool × Str)
  | [] => []
  | c :: t =>
    match chunks t with
    | (b, run) :: rs => if isWS c = b then (b, c :: run) :: rs else (isWS c, [c]) :: (b, run) :: rs
    | [] => [(isWS c, [c])]

/-- Claim-side Strategy A split: walk the runs; separating whitespace runs
break tokens, all other runs are literal token text. -/
def tokensOfChunks : List (Bool × Str) → List Str
  | [] => [[]]
  | (true, run) :: rest =>
    if sepRunA run then [] :: tokensOfChunks rest
    else appendHead run (tokensOfChunks rest)
  | (false, run) :: rest => appendHead run (tokensOfChunks rest)

/-- Claim-side Strategy B split: every whitespace run separates, so the
cells are exactly the maximal non-whitespace runs. -/
def wordsOfChunks (cl : List (Bool × Str)) : List Str :=
  (cl.filter (fun p => !p.1)).map Prod.snd

/-- Claim-side Strategy B split with explicit boundaries: every whitespace
run separates. -/
def tokensOfChunksB : List (Bool × Str) → List Str
  | [] => [[]]
  | (true, _) :: rest => [] :: tokensOfChunksB rest
  | (false, run) :: rest => appendHead run (tokensOfChunksB rest)

/-- The first remaining chunk, if any, does not carry tag `b`. -/
def headTagIsNot (b : Bool) : List (Bool × Str) → Prop
  | [] => True
  | (b', _) :: _ => b' ≠ b

/-- Well-formedness of a chunk decomposition: chunks are non-empty, their
characters match their tag, and adjacent tags alternate. -/
def chunksWF : List (Bool × Str) → Prop
  | [] => True
  | (b, run) :: rest =>
    run ≠ [] ∧ (∀ ch ∈ run, isWS ch = b) ∧ headTagIsNot b rest ∧ chunksWF rest

/-- The anchor-pair formatting rule exactly as the claim states it:
decimal anchors keep the maximum decimal-place count; otherwise the result
is rounded to an integer and, whenever either anchor starts with `0` or the
anchor strings have different lengths, zero-padded to the longer anchor's
digit count. -/
def claimAnchorFmt (f l : Str) (row totalRows : Nat) : Str :=
  let fn := (parseFloatQ (cleanNumericValue f)).getD (Frac.ofNat 0)
  let ln := (parseFloatQ (cleanNumericValue l)).getD (Frac.ofNat 0)
  let value := fn.add ((ln.sub fn).mul ((Frac.ofNat row).div ((Frac.ofNat totalRows).sub (Frac.ofNat 1))))
  if includesDot f || includesDot l then
    toFixedQ value (max (decimalsOf f) (decimalsOf l))
  else if decide (f.length ≠ l.length) || startsWithZero f || startsWithZero l then
    padStartZeros (intToStr (roundJS value)) (max f.length l.length)
  else intToStr (roundJS value)

/-- The anchor-pair formatting rule as the code actually implements it
(the amended claim): decimal anchors keep the maximum decimal-place count;
integer results are zero-padded only when both parsed anchors are positive
and the first anchor's rounded value has strictly more digits than the
last's (and more than one), padded to the first anchor's digit count. -/
def amendedAnchorFmt (f l : Str) (row totalRows : Nat) : Str :=
  let fn := (parseFloatQ (cleanNumericValue f)).getD (Frac.ofNat 0)
  let ln := (parseFloatQ (cleanNumericValue l)).getD (Frac.ofNat 0)
  let value := fn.add ((ln.sub fn).mul ((Frac.ofNat row).div ((Frac.ofNat totalRows).sub (Frac.ofNat 1))))
  if includesDot (trimStr f) || includesDot (trimStr l) then
    toFixedQ value (max (decimalsOf (trimStr f)) (decimalsOf (trimStr l)))
  else
    let digitsFirst := intToStr (roundJS fn)
    let digitsLast := intToStr (roundJS ln)
    if fn.isPos && ln.isPos && decide (digitsLast.length < digitsFirst.length)
        && decide (1 < digitsFirst.length) then
      padStartZeros (intToStr (roundJS value)) digitsFirst.length
    else intToStr (roundJS value)

theorem idxMap_length (f : Nat → α → β) : ∀ (s : Nat) (l : List α),
    (idxMap f s l).length = l.length
  | _, [] => rfl
  | s, _ :: as => by simp [idxMap, idxMap_length f (s + 1) as]

theorem idxMap_getElem? (f : Nat → α → β) : ∀ (s : Nat) (l : List α) (i : Nat),
    (idxMap f s l)[i]? = l[i]?.map (f (s + i))
  | _, [], i => by simp [idxMap]
  | s, a :: as, 0 => by simp [idxMap]
  | s, a :: as, i + 1 => by
    have h := idxMap_getElem? f (s + 1) as i
    have e : s + 1 + i = s + (i + 1) := by omega
    rw [e] at h
    simp only [idxMap, List.getElem?_cons_succ, h]

theorem getCell_eq_entry? (g : Grid) (r c : Nat) : getCell g r c = (entry? g r c).join := rfl

theorem set_of_length_le : ∀ (l : List α) (i : Nat), l.length ≤ i → ∀ (a : α), l.set i a = l
  | [], _, _, _ => rfl
  | _ :: _, 0, h, _ => by simp at h
  | b :: l, i + 1, h, a => by
    simp only [List.set]
    rw [set_of_length_le l i (by simpa using h) a]

theorem set_getElem?_self : ∀ (l : List α) (i : Nat) (a : α), l[i]? = some a → l.set i a = l
  | [], _, _, h => by simp at h
  | b :: l, 0, a, h => by simp_all
  | b :: l, i + 1, a, h => by
    simp only [List.getElem?_cons_succ] at h
    simp only [List.set]
    rw [set_getElem?_self l i a h]

theorem length_setCell (g : Grid) (r c : Nat) (v : Option TableCell) :
    (setCell g r c v).length = g.length := by
  unfold setCell
  cases g[r]? <;> simp

theorem entry?_setCell_ne_row (g : Grid) (r c r' c' : Nat) (v : Option TableCell)
    (h : r' ≠ r) : entry? (setCell g r c v) r' c' = entry? g r' c' := by
  cases hg : g[r]? with
  | none => simp [setCell, entry?, hg]
  | some row => simp [setCell, entry?, hg, List.getElem?_set, Ne.symm h]

theorem entry?_setCell_ne_col (g : Grid) (r c c' : Nat) (v : Option TableCell)
    (h : c' ≠ c) : entry? (setCell g r c v) r c' = entry? g r c' := by
  cases hg : g[r]? with
  | none => simp [setCell, entry?, hg]
  | some row =>
    have hr : r < g.length := (List.getElem?_eq_some.mp hg).1
    simp [setCell, entry?, hg, List.getElem?_set, hr, Ne.symm h]

theorem entry?_setCell_self (g : Grid) (r c : Nat) (v w : Option TableCell)
    (h : entry? g r c = some w) : entry? (setCell g r c v) r c = some v := by
  unfold entry? at h
  cases hg : g[r]? with
  | none => simp [hg] at h
  | some row =>
    rw [hg] at h
    simp only [Option.getD_some] at h
    have hr : r < g.length := (List.getElem?_eq_some.mp hg).1
    have hc : c < row.length := (List.getElem?_eq_some.mp h).1
    simp [setCell, entry?, hg, List.getElem?_set, hr, hc]

theorem setCell_oob (g : Grid) (r c : Nat) (v : Option TableCell)
    (h : entry? g r c = none) : setCell g r c v = g := by
  unfold entry? at h
  cases hg : g[r]? with
  | none => simp [setCell, hg]
  | some row =>
    rw [hg] at h
    simp only [Option.getD_some] at h
    have hlen : row.length ≤ c := by
      by_contra hlt
      push_neg at hlt
      rcases List.getElem?_eq_some.mpr ⟨hlt, rfl⟩ with hsome
      rw [h] at hsome
      cases hsome
    simp only [setCell, hg]
    rw [set_of_length_le row c hlen v]
    exact set_getElem?_self g r row hg

/-! ## The interpolation lookups observe only non-interpolated cells -/

theorem findAbove_succ (g : Grid) (c n : Nat) :
    findAbove g c (n + 1) =
      match srcView g n c with
      | some v => some (n, v)
      | none => findAbove g c n := by
  cases hgc : getCell g n c with
  | none => simp only [findAbove, srcView, hgc]
  | some cell =>
    cases hi : cell.interpolated <;>
      simp only [findAbove, srcView, hgc, hi, Bool.false_eq_true, if_false, if_true]

theorem findAbove_congr (g₁ g₂ : Grid) (c : Nat)
    (h : ∀ i, srcView g₁ i c = srcView g₂ i c) :
    ∀ n, findAbove g₁ c n = findAbove g₂ c n
  | 0 => rfl
  | n + 1 => by
    rw [findAbove_succ, findAbove_succ, h n, findAbove_congr g₁ g₂ c h n]

theorem findBelowFuel_step (g : Grid) (c i fuel : Nat) :
    findBelowFuel g c i (fuel + 1) =
      match srcView g i c with
      | some v => some (i, v)
      | none => findBelowFuel g c (i + 1) fuel := by
  cases hgc : getCell g i c with
  | none => simp only [findBelowFuel, srcView, hgc]
  | some cell =>
    cases hi : cell.interpolated <;>
      simp only [findBelowFuel, srcView, hgc, hi, Bool.false_eq_true, if_false, if_true]

theorem findBelowFuel_congr (g₁ g₂ : Grid) (c : Nat)
    (h : ∀ i, srcView g₁ i c = srcView g₂ i c) :
    ∀ fuel i, findBelowFuel g₁ c i fuel = findBelowFuel g₂ c i fuel
  | 0, _ => rfl
  | fuel + 1, i => by
    rw [findBelowFuel_step, findBelowFuel_step, h i,
      findBelowFuel_congr g₁ g₂ c h fuel (i + 1)]

/-- `interpolateValue` depends on the grid only through its length and the
values of its non-interpolated cells: interpolated cells (like `null` and
missing cells) are never consulted as `above`/`below` sources. -/
theorem interpolateValue_congr (g₁ g₂ : Grid) (hlen : g₁.length = g₂.length)
    (h : ∀ r c, srcView g₁ r c = srcView g₂ r c) (r c : Nat)
    (fa la : Option (List Str)) :
    interpolateValue g₁ r c fa la = interpolateValue g₂ r c fa la := by
  have hA : findAbove g₁ c r = findAbove g₂ c r :=
    findAbove_congr g₁ g₂ c (fun i => h i c) r
  have hB : findBelow g₁ c r = findBelow g₂ c r := by
    unfold findBelow
    rw [hlen, findBelowFuel_congr g₁ g₂ c (fun i => h i c)]
  simp only [interpolateValue, interpolateFallback, hlen, hA, hB]

/-! ## The interpolation pass as a pointwise map -/

theorem length_fillTarget (g₀ : Grid) (fa la : Option (List Str)) (l : List (Nat × Nat)) :
    (fillTarget g₀ fa la l).length = g₀.length :=
  idxMap_length _ 0 g₀

theorem entry?_fillTarget (g₀ : Grid) (fa la : Option (List Str)) (l : List (Nat × Nat))
    (r c : Nat) :
    entry? (fillTarget g₀ fa la l) r c = (entry? g₀ r c).map (resolveEntry g₀ fa la l r c) := by
  unfold fillTarget entry?
  rw [idxMap_getElem?]
  cases g₀[r]? with
  | none => simp
  | some row => simp [idxMap_getElem?]

theorem fillTarget_nil (g₀ : Grid) (fa la : Option (List Str)) :
    fillTarget g₀ fa la [] = g₀ := by
  apply List.ext_getElem?
  intro r
  unfold fillTarget
  rw [idxMap_getElem?]
  cases g₀[r]? with
  | none => simp
  | some row =>
    simp only [Nat.zero_add, Option.map_some']
    congr 1
    apply List.ext_getElem?
    intro c
    rw [idxMap_getElem?]
    cases row[c]? with
    | none => simp
    | some cell => cases cell <;> simp [resolveEntry]

/-- Membership is all `fillTarget` sees of the position list. -/
theorem fillTarget_mem_congr (g₀ : Grid) (fa la : Option (List Str))
    (l₁ l₂ : List (Nat × Nat)) (h : ∀ p, p ∈ l₁ ↔ p ∈ l₂) :
    fillTarget g₀ fa la l₁ = fillTarget g₀ fa la l₂ := by
  apply List.ext_getElem?
  intro r
  unfold fillTarget
  rw [idxMap_getElem?, idxMap_getElem?]
  cases g₀[r]? with
  | none => rfl
  | some row =>
    simp only [Nat.zero_add, Option.map_some']
    congr 1
    apply List.ext_getElem?
    intro c
    rw [idxMap_getElem?, idxMap_getElem?]
    cases row[c]? with
    | none => rfl
    | some cell =>
      cases cell with
      | some x => rfl
      | none =>
        simp only [Nat.zero_add, Option.map_some', resolveEntry]
        rw [if_congr (h (r, c)) rfl rfl]

theorem grid_ext (g₁ g₂ : Grid) (hlen : g₁.length = g₂.length)
    (h : ∀ r c, entry? g₁ r c = entry? g₂ r c) : g₁ = g₂ := by
  apply List.ext_getElem?
  intro r
  by_cases hr : r < g₁.length
  · have h₁ : g₁[r]? = some g₁[r] := List.getElem?_eq_some.mpr ⟨hr, rfl⟩
    have hr₂ : r < g₂.length := hlen ▸ hr
    have h₂ : g₂[r]? = some g₂[r] := List.getElem?_eq_some.mpr ⟨hr₂, rfl⟩
    rw [h₁, h₂]
    congr 1
    apply List.ext_getElem?
    intro c
    have hc := h r c
    unfold entry? at hc
    rw [h₁, h₂] at hc
    simpa using hc
  · rw [List.getElem?_eq_none (by omega), List.getElem?_eq_none (by omega : g₂.length ≤ r)]

theorem entry?_eq_some_none_of (g : Grid) (r c : Nat) {row : List (Option TableCell)}
    (hgr : g[r]? = some row) (hrc : row[c]? = some none) : entry? g r c = some none := by
  unfold entry?
  rw [hgr]
  simpa using hrc

theorem getCell_of_entry?_some_none (g : Grid) (r c : Nat)
    (h : entry? g r c = some none) : getCell g r c = none := by
  rw [getCell_eq_entry?, h]
  rfl

theorem fillStep_of_some (fa la : Option (List Str)) (g : Grid) (r c : Nat)
    (x : TableCell) (h : getCell g r c = some x) : fillStep fa la g (r, c) = g := by
  simp only [fillStep, h]

theorem fillStep_of_none (fa la : Option (List Str)) (g : Grid) (r c : Nat)
    (h : getCell g r c = none) :
    fillStep fa la g (r, c)
      = setCell g r c (some ⟨interpolateValue g r c fa la, true⟩) := by
  simp only [fillStep, h]

theorem length_fillStep (fa la : Option (List Str)) (g : Grid) : ∀ (p : Nat × Nat),
    (fillStep fa la g p).length = g.length
  | (r, c) => by
    cases hp : getCell g r c with
    | none => rw [fillStep_of_none fa la g r c hp, length_setCell]
    | some x => rw [fillStep_of_some fa la g r c x hp]

theorem srcView_setCell_interp (g : Grid) (rp cp : Nat) (v : Str)
    (h : getCell g rp cp = none) (r c : Nat) :
    srcView (setCell g rp cp (some ⟨v, true⟩)) r c = srcView g r c := by
  by_cases hr : r = rp
  · subst hr
    by_cases hc : c = cp
    · subst hc
      cases he : entry? g r c with
      | none => rw [setCell_oob g r c _ he]
      | some w =>
        have hw : w = none := by
          rw [getCell_eq_entry?, he] at h
          simpa using h
        subst hw
        have hafter := entry?_setCell_self g r c (some ⟨v, true⟩) none he
        unfold srcView
        rw [getCell_eq_entry?, getCell_eq_entry?, he, hafter]
        rfl
    · unfold srcView
      rw [getCell_eq_entry?, getCell_eq_entry?, entry?_setCell_ne_col g r cp c _ hc]
  · unfold srcView
    rw [getCell_eq_entry?, getCell_eq_entry?, entry?_setCell_ne_row g rp cp r c _ hr]

theorem srcView_fillStep (fa la : Option (List Str)) (g : Grid) :
    ∀ (p : Nat × Nat) (r c : Nat), srcView (fillStep fa la g p) r c = srcView g r c
  | (rp, cp), r, c => by
    cases hp : getCell g rp cp with
    | some x => rw [fillStep_of_some fa la g rp cp x hp]
    | none =>
      rw [fillStep_of_none fa la g rp cp hp]
      exact srcView_setCell_interp g rp cp _ hp r c

/-- Processing one position and then resolving a list of positions is the
same as resolving the extended list against the untouched grid: the write
performed by `fillStep` is invisible to every later interpolation. -/
theorem fillTarget_fillStep (g : Grid) (fa la : Option (List Str))
    (p : Nat × Nat) (l : List (Nat × Nat)) :
    fillTarget (fillStep fa la g p) fa la l = fillTarget g fa la (p :: l) := by
  obtain ⟨rp, cp⟩ := p
  have hlen : (fillStep fa la g (rp, cp)).length = g.length := length_fillStep fa la g (rp, cp)
  have hiv : ∀ r c, interpolateValue (fillStep fa la g (rp, cp)) r c fa la
      = interpolateValue g r c fa la :=
    fun r c => interpolateValue_congr _ _ hlen (srcView_fillStep fa la g (rp, cp)) r c fa la
  apply grid_ext
  · rw [length_fillTarget, length_fillTarget, hlen]
  · intro r c
    rw [entry?_fillTarget, entry?_fillTarget]
    cases hp : getCell g rp cp with
    | some x =>
      rw [fillStep_of_some fa la g rp cp x hp] at hiv ⊢
      cases he : entry? g r c with
      | none => rfl
      | some cell =>
        cases cell with
        | some y => rfl
        | none =>
          have hne : (r, c) ≠ (rp, cp) := by
            intro heq
            have hrr : r = rp := congrArg Prod.fst heq
            have hcc : c = cp := congrArg Prod.snd heq
            have hnone := getCell_of_entry?_some_none g r c he
            rw [hrr, hcc, hp] at hnone
            cases hnone
          simp [resolveEntry, List.mem_cons, hne]
    | none =>
      rw [fillStep_of_none fa la g rp cp hp] at hiv ⊢
      by_cases hpe : (r, c) = (rp, cp)
      · have hrr : r = rp := congrArg Prod.fst hpe
        have hcc : c = cp := congrArg Prod.snd hpe
        subst hrr
        subst hcc
        cases he : entry? g r c with
        | none =>
          rw [setCell_oob g r c _ he, he]
          rfl
        | some w =>
          have hw : w = none := by
            rw [getCell_eq_entry?, he] at hp
            simpa using hp
          subst hw
          rw [entry?_setCell_self g r c _ none he]
          simp [resolveEntry]
      · have he : entry? (setCell g rp cp
            (some ⟨interpolateValue g rp cp fa la, true⟩)) r c = entry? g r c := by
          by_cases hr : r = rp
          · subst hr
            have hc : c ≠ cp := fun hceq => hpe (by rw [hceq])
            exact entry?_setCell_ne_col g r cp c _ hc
          · exact entry?_setCell_ne_row g rp cp r c _ hr
        rw [he]
        cases he' : entry? g r c with
        | none => rfl
        | some cell =>
          cases cell with
          | some y => rfl
          | none =>
            simp [resolveEntry, hiv, List.mem_cons, hpe]

/-- The interpolation pass, in any processing order, equals the order-free
pointwise description. -/
theorem foldl_fillStep (fa la : Option (List Str)) :
    ∀ (l : List (Nat × Nat)) (g : Grid),
      l.foldl (fillStep fa la) g = fillTarget g fa la l
  | [], g => by rw [List.foldl_nil, fillTarget_nil]
  | p :: l, g => by
    rw [List.foldl_cons, foldl_fillStep fa la l (fillStep fa la g p),
      fillTarget_fillStep]

/-! ## Characterising `parseTextToTable`'s output cells -/

theorem mem_rowMajor (rows cols r c : Nat) :
    (r, c) ∈ rowMajor rows cols ↔ r < rows ∧ c < cols := by
  constructor
  · intro h
    rcases List.mem_flatMap.mp h with ⟨a, ha, hb⟩
    rcases List.mem_map.mp hb with ⟨b, hbmem, heq⟩
    have hr : a = r := congrArg Prod.fst heq
    have hc : b = c := congrArg Prod.snd heq
    subst hr
    subst hc
    exact ⟨List.mem_range.mp ha, List.mem_range.mp hbmem⟩
  · rintro ⟨hr, hc⟩
    exact List.mem_flatMap.mpr
      ⟨r, List.mem_range.mpr hr, List.mem_map.mpr ⟨c, List.mem_range.mpr hc, rfl⟩⟩

theorem length_buildNormalized (limited : List (List Str)) (tr tc : Nat)
    (fa la : Option (List Str)) : (buildNormalized limited tr tc fa la).length = tr := by
  simp [buildNormalized]

theorem length_normalizedRow (limited : List (List Str)) (tr tc r : Nat)
    (fa la : Option (List Str)) : (normalizedRow limited tr tc r fa la).length = tc := by
  simp [normalizedRow]

theorem getElem?_buildNormalized (limited : List (List Str)) (tr tc r : Nat)
    (fa la : Option (List Str)) :
    (buildNormalized limited tr tc fa la)[r]? =
      if r < tr then some (normalizedRow limited tr tc r fa la) else none := by
  unfold buildNormalized
  rw [List.getElem?_map]
  by_cases h : r < tr
  · rw [List.getElem?_range h]
    simp [h]
  · rw [@List.getElem?_eq_none Nat (List.range tr) r (by have := List.length_range tr; omega)]
    simp [h]

theorem getElem?_normalizedRow (limited : List (List Str)) (tr tc r c : Nat)
    (fa la : Option (List Str)) :
    (normalizedRow limited tr tc r fa la)[c]? =
      if c < tc then
        some (classifyCell r (effectiveCellValue (limited[r]?.getD []) tr r c fa la))
      else none := by
  unfold normalizedRow
  rw [List.getElem?_map]
  by_cases h : c < tc
  · rw [List.getElem?_range h]
    simp [h]
  · rw [@List.getElem?_eq_none Nat (List.range tc) c (by have := List.length_range tc; omega)]
    simp [h]

theorem entry?_buildNormalized (limited : List (List Str)) (tr tc r c : Nat)
    (fa la : Option (List Str)) (hr : r < tr) (hc : c < tc) :
    entry? (buildNormalized limited tr tc fa la) r c
      = some (classifyCell r (effectiveCellValue (limited[r]?.getD []) tr r c fa la)) := by
  unfold entry?
  rw [getElem?_buildNormalized]
  simp only [if_pos hr, Option.getD_some]
  rw [getElem?_normalizedRow]
  simp [hc]

theorem filterMap_id_eq_map (d : α) : ∀ (l : List (Option α)), (∀ x ∈ l, x ≠ none) →
    l.filterMap id = l.map (fun o => o.getD d)
  | [], _ => rfl
  | a :: t, h => by
    cases a with
    | none => exact absurd rfl (h none (List.mem_cons_self _ _))
    | some x =>
      have ht := filterMap_id_eq_map d t (fun y hy => h y (List.mem_cons_of_mem _ hy))
      simp [List.filterMap_cons, ht]

theorem parse_eq_fillTarget (text : Str) (cols rows : Nat) (fv lv : Option Str)
    (hraw : rawTableOf text cols ≠ []) :
    parseTextToTable text cols rows fv lv
      = (fillTarget (normalizedOf text cols rows fv lv) (parseAnchor fv) (parseAnchor lv)
          (rowMajor rows cols)).map (fun row => row.filterMap id) := by
  unfold parseTextToTable normalizedOf
  simp only [if_neg hraw]
  rw [length_buildNormalized, foldl_fillStep]

theorem getFinal_parse (text : Str) (cols rows : Nat) (fv lv : Option Str)
    (hraw : rawTableOf text cols ≠ []) (r c : Nat) (hr : r < rows) (hc : c < cols) :
    getFinal (parseTextToTable text cols rows fv lv) r c
      = some (resolvedCell (normalizedOf text cols rows fv lv)
          (parseAnchor fv) (parseAnchor lv) r c) := by
  rw [parse_eq_fillTarget text cols rows fv lv hraw]
  set g₀ := normalizedOf text cols rows fv lv with hg₀
  set fa := parseAnchor fv
  set la := parseAnchor lv
  have hrow : g₀[r]? = some (normalizedRow ((rawTableOf text cols).take rows) rows cols r fa la) := by
    rw [hg₀]
    unfold normalizedOf
    rw [getElem?_buildNormalized]
    simp [hr]
  set nrow := normalizedRow ((rawTableOf text cols).take rows) rows cols r fa la with hnrow
  have hfrow : (fillTarget g₀ fa la (rowMajor rows cols))[r]?
      = some (idxMap (fun c cell => resolveEntry g₀ fa la (rowMajor rows cols) r c cell) 0 nrow) := by
    unfold fillTarget
    rw [idxMap_getElem?, hrow]
    simp
  set frow := idxMap (fun c cell => resolveEntry g₀ fa la (rowMajor rows cols) r c cell) 0 nrow
    with hfrowdef
  have hall : ∀ x ∈ frow, x ≠ none := by
    intro x hx hxn
    subst hxn
    rcases List.mem_iff_getElem?.mp hx with ⟨k, hk⟩
    rw [hfrowdef, idxMap_getElem?, Nat.zero_add] at hk
    cases hnk : nrow[k]? with
    | none => rw [hnk] at hk; cases hk
    | some cellk =>
      rw [hnk] at hk
      simp only [Option.map_some'] at hk
      have hklt : k < cols := by
        have h1 : k < nrow.length := (List.getElem?_eq_some.mp hnk).1
        rwa [hnrow, length_normalizedRow] at h1
      cases cellk with
      | some y => cases hk
      | none =>
        rw [resolveEntry, if_pos ((mem_rowMajor rows cols r k).mpr ⟨hr, hklt⟩)] at hk
        cases hk
  unfold getFinal
  rw [List.getElem?_map, hfrow]
  simp only [Option.map_some', Option.some_bind]
  rw [filterMap_id_eq_map defaultCell frow hall]
  rw [List.getElem?_map, hfrowdef, idxMap_getElem?, Nat.zero_add]
  have hcell : nrow[c]? = some (classifyCell r
      (effectiveCellValue (((rawTableOf text cols).take rows)[r]?.getD []) rows r c fa la)) := by
    rw [hnrow, getElem?_normalizedRow]
    simp [hc]
  rw [hcell]
  simp only [Option.map_some']
  have hent : entry? g₀ r c = some (classifyCell r
      (effectiveCellValue (((rawTableOf text cols).take rows)[r]?.getD []) rows r c fa la)) := by
    rw [hg₀]
    unfold normalizedOf
    exact entry?_buildNormalized _ rows cols r c fa la hr hc
  cases hclass : classifyCell r
      (effectiveCellValue (((rawTableOf text cols).take rows)[r]?.getD []) rows r c fa la) with
  | some x =>
    rw [hclass] at hent
    have hgc : getCell g₀ r c = some x := by
      rw [getCell_eq_entry?, hent]
      rfl
    simp [resolveEntry, resolvedCell, hgc]
  | none =>
    rw [hclass] at hent
    have hgc : getCell g₀ r c = none := by
      rw [getCell_eq_entry?, hent]
      rfl
    simp only [resolveEntry, resolvedCell, hgc]
    rw [if_pos ((mem_rowMajor rows cols r c).mpr ⟨hr, hc⟩)]
    rfl

theorem createEmptyTable_length (cols rows : Nat) (h : 1 ≤ rows) :
    (createEmptyTable cols rows).length = rows := by
  unfold createEmptyTable
  simp only [List.length_cons, List.length_map, List.length_range]
  omega

theorem createEmptyTable_row_length (cols rows : Nat) :
    ∀ row ∈ createEmptyTable cols rows, row.length = cols := by
  intro row h
  unfold createEmptyTable at h
  rcases List.mem_cons.mp h with h | h
  · subst h
    simp
  · rcases List.mem_map.mp h with ⟨_, _, heq⟩
    subst heq
    simp

theorem parse_length (text : Str) (cols rows : Nat) (fv lv : Option Str)
    (hrows : 1 ≤ rows) : (parseTextToTable text cols rows fv lv).length = rows := by
  by_cases hraw : rawTableOf text cols = []
  · unfold parseTextToTable
    simp only [if_pos hraw]
    exact createEmptyTable_length cols rows hrows
  · rw [parse_eq_fillTarget _ _ _ _ _ hraw, List.length_map, length_fillTarget]
    unfold normalizedOf
    rw [length_buildNormalized]

theorem parse_row_length (text : Str) (cols rows : Nat) (fv lv : Option Str) :
    ∀ row ∈ parseTextToTable text cols rows fv lv, row.length = cols := by
  intro row hrow
  by_cases hraw : rawTableOf text cols = []
  · unfold parseTextToTable at hrow
    rw [if_pos hraw] at hrow
    exact createEmptyTable_row_length cols rows row hrow
  · rw [parse_eq_fillTarget _ _ _ _ _ hraw] at hrow
    rcases List.mem_map.mp hrow with ⟨orow, horow, heq⟩
    subst heq
    rcases List.mem_iff_getElem?.mp horow with ⟨r, hrw⟩
    unfold fillTarget at hrw
    rw [idxMap_getElem?, Nat.zero_add] at hrw
    cases hg : (normalizedOf text cols rows fv lv)[r]? with
    | none => rw [hg] at hrw; cases hrw
    | some nrow =>
      rw [hg] at hrw
      simp only [Option.map_some'] at hrw
      have hr : r < rows := by
        have h1 : r < (normalizedOf text cols rows fv lv).length :=
          (List.getElem?_eq_some.mp hg).1
        unfold normalizedOf at h1
        rwa [length_buildNormalized] at h1
      have hnrow : nrow = normalizedRow ((rawTableOf text cols).take rows) rows cols r
          (parseAnchor fv) (parseAnchor lv) := by
        unfold normalizedOf at hg
        rw [getElem?_buildNormalized, if_pos hr] at hg
        exact (Option.some.injEq _ _ ▸ hg).symm
      set frow := idxMap (fun c cell => resolveEntry (normalizedOf text cols rows fv lv)
        (parseAnchor fv) (parseAnchor lv) (rowMajor rows cols) r c cell) 0 nrow with hfrowdef
      have hall : ∀ x ∈ frow, x ≠ none := by
        intro x hx hxn
        subst hxn
        rcases List.mem_iff_getElem?.mp hx with ⟨k, hk⟩
        rw [hfrowdef, idxMap_getElem?, Nat.zero_add] at hk
        cases hnk : nrow[k]? with
        | none => rw [hnk] at hk; cases hk
        | some cellk =>
          rw [hnk] at hk
          simp only [Option.map_some'] at hk
          have hklt : k < cols := by
            have h1 : k < nrow.length := (List.getElem?_eq_some.mp hnk).1
            rwa [hnrow, length_normalizedRow] at h1
          cases cellk with
          | some y => cases hk
          | none =>
            rw [resolveEntry, if_pos ((mem_rowMajor rows cols r k).mpr ⟨hr, hklt⟩)] at hk
            cases hk
      have heq2 : frow = orow := Option.some.inj hrw
      rw [← heq2, filterMap_id_eq_map defaultCell frow hall, List.length_map, hfrowdef,
        idxMap_length, hnrow, length_normalizedRow]

/-! ## Claim-side description of the tokeniser (for C6) -/

theorem appendHead_append (x y : Str) (r : List Str) :
    appendHead (x ++ y) r = appendHead x (appendHead y r) := by
  cases r <;> simp [appendHead]

theorem consHead_eq_appendHead (c : Char) (r : List Str) :
    consHead c r = appendHead [c] r := by
  cases r <;> simp [consHead, appendHead]

theorem contains_reverse (l : Str) (a : Char) : l.reverse.contains a = l.contains a := by
  simp [List.contains_eq_any_beq]

theorem sepRunA_reverse (run : Str) : sepRunA run.reverse = sepRunA run := by
  unfold sepRunA
  rw [List.length_reverse, contains_reverse]

theorem chunks_head_tag (c : Char) (t : Str) :
    ∃ run rs, chunks (c :: t) = (isWS c, run) :: rs ∧ run ≠ [] := by
  cases hct : chunks t with
  | nil => exact ⟨[c], [], by simp [chunks, hct], by simp⟩
  | cons p rs =>
    obtain ⟨b, run⟩ := p
    by_cases hb : isWS c = b
    · subst hb
      exact ⟨c :: run, rs, by simp [chunks, hct], by simp⟩
    · exact ⟨[c], (b, run) :: rs, by simp [chunks, hct, hb], by simp⟩

theorem tokensOfChunks_nonws_cons (c : Char) (t : Str) (h : isWS c = false) :
    tokensOfChunks (chunks (c :: t)) = appendHead [c] (tokensOfChunks (chunks t)) := by
  cases hct : chunks t with
  | nil =>
    simp [chunks, hct, h, tokensOfChunks, appendHead]
  | cons p rs =>
    obtain ⟨b, run⟩ := p
    cases b with
    | true =>
      have hne : isWS c ≠ true := by simp [h]
      simp [chunks, hct, hne, h, tokensOfChunks]
    | false =>
      have heq : isWS c = false := h
      simp only [chunks, hct, heq, if_pos rfl]
      simp only [tokensOfChunks]
      rw [← List.singleton_append, appendHead_append]

theorem chunks_ws_append : ∀ (w t : Str), w ≠ [] → (∀ ch ∈ w, isWS ch = true) →
    (t = [] ∨ ∃ c t', t = c :: t' ∧ isWS c = false) →
    chunks (w ++ t) = (true, w) :: chunks t
  | [], _, hw, _, _ => absurd rfl hw
  | [x], t, _, hws, ht => by
    have hx : isWS x = true := hws x (List.mem_cons_self _ _)
    rcases ht with ht | ⟨c, t', ht, hc⟩
    · subst ht
      simp [chunks, hx]
    · subst ht
      rcases chunks_head_tag c t' with ⟨run, rs, hshape, -⟩
      show chunks (x :: c :: t') = (true, [x]) :: chunks (c :: t')
      conv_lhs => rw [chunks]
      rw [hshape]
      simp [hx, hc]
  | x :: y :: w', t, _, hws, ht => by
    have hx : isWS x = true := hws x (List.mem_cons_self _ _)
    have hy : isWS y = true := hws y (List.mem_cons_of_mem _ (List.mem_cons_self _ _))
    have hrec := chunks_ws_append (y :: w') t (by simp)
      (fun ch hch => hws ch (List.mem_cons_of_mem _ hch)) ht
    simp only [List.cons_append] at hrec ⊢
    conv_lhs => rw [chunks]
    rw [hrec]
    simp [hx]

theorem chunks_all_ws (w : Str) (hw : w ≠ []) (hws : ∀ ch ∈ w, isWS ch = true) :
    chunks w = [(true, w)] := by
  have h := chunks_ws_append w [] hw hws (Or.inl rfl)
  simpa using h

theorem appendHead_nil_of_ne (r : List Str) (h : r ≠ []) : appendHead [] r = r := by
  cases r with
  | nil => exact absurd rfl h
  | cons t ts => simp [appendHead]

theorem tokensOfChunks_ne_nil : ∀ (cl : List (Bool × Str)), tokensOfChunks cl ≠ []
  | [] => by simp [tokensOfChunks]
  | (true, run) :: rest => by
    by_cases hs : sepRunA run = true
    · simp [tokensOfChunks, hs]
    · simp only [tokensOfChunks, if_neg hs]
      cases tokensOfChunks rest <;> simp [appendHead]
  | (false, run) :: rest => by
    simp only [tokensOfChunks]
    cases tokensOfChunks rest <;> simp [appendHead]

theorem splitAAux_eq : ∀ (s curTok run : Str), (∀ ch ∈ run, isWS ch = true) →
    splitAAux curTok run s
      = appendHead curTok.reverse (tokensOfChunks (chunks (run.reverse ++ s)))
  | [], curTok, run, hrun => by
    by_cases hr : run = []
    · subst hr
      simp [splitAAux, tokensOfChunks, chunks, appendHead]
    · have hwsrev : ∀ ch ∈ run.reverse, isWS ch = true :=
        fun ch hch => hrun ch (List.mem_reverse.mp hch)
      have hrev : run.reverse ≠ [] := by simpa using hr
      rw [List.append_nil, chunks_all_ws run.reverse hrev hwsrev]
      by_cases hs : sepRunA run = true
      · have hs' : sepRunA run.reverse = true := by rw [sepRunA_reverse]; exact hs
        simp [splitAAux, tokensOfChunks, hr, hs, hs', appendHead]
      · have hs' : sepRunA run.reverse = false := by
          rw [sepRunA_reverse]
          exact Bool.not_eq_true _ ▸ by simpa using hs
        simp [splitAAux, tokensOfChunks, hr, hs, hs', appendHead, List.reverse_append]
  | c :: rest, curTok, run, hrun => by
    by_cases hc : isWS c = true
    · have hrun' : ∀ ch ∈ c :: run, isWS ch = true := by
        intro ch hch
        rcases List.mem_cons.mp hch with h | h
        · subst h; exact hc
        · exact hrun ch h
      have hIH := splitAAux_eq rest curTok (c :: run) hrun'
      have hl : (c :: run).reverse ++ rest = run.reverse ++ (c :: rest) := by
        rw [List.reverse_cons, List.append_assoc]
        rfl
      rw [hl] at hIH
      simpa [splitAAux, hc] using hIH
    · have hcf : isWS c = false := by simpa using hc
      by_cases hr : run = []
      · subst hr
        have hIH := splitAAux_eq rest (c :: curTok) [] hrun
        simp only [List.reverse_nil, List.nil_append] at hIH ⊢
        rw [splitAAux]
        rw [hIH, List.reverse_cons, appendHead_append, tokensOfChunks_nonws_cons c rest hcf]
        simp [hcf]
      · have hwsrev : ∀ ch ∈ run.reverse, isWS ch = true :=
          fun ch hch => hrun ch (List.mem_reverse.mp hch)
        have hrev : run.reverse ≠ [] := by simpa using hr
        have hchunks : chunks (run.reverse ++ (c :: rest))
            = (true, run.reverse) :: chunks (c :: rest) :=
          chunks_ws_append run.reverse (c :: rest) hrev hwsrev
            (Or.inr ⟨c, rest, rfl, hcf⟩)
        by_cases hs : sepRunA run = true
        · have hs' : sepRunA run.reverse = true := by rw [sepRunA_reverse]; exact hs
          have hIH := splitAAux_eq rest [c] [] (by simp)
          simp only [List.reverse_nil, List.nil_append,
            List.reverse_cons, List.append_nil] at hIH
          rw [splitAAux]
          simp only [hcf, Bool.false_eq_true, if_false, if_neg hr, hs, if_true]
          rw [hIH, ← tokensOfChunks_nonws_cons c rest hcf, hchunks]
          simp [tokensOfChunks, hs', appendHead]
        · have hs2 : sepRunA run = false := by simpa using hs
          have hs' : sepRunA run.reverse = false := by
            rw [sepRunA_reverse]
            exact hs2
          have hIH := splitAAux_eq rest (c :: (run ++ curTok)) [] (by simp)
          simp only [List.reverse_nil, List.nil_append] at hIH
          rw [splitAAux]
          simp only [hcf, Bool.false_eq_true, if_false, if_neg hr, hs2]
          rw [hIH, List.reverse_cons, List.reverse_append, List.append_assoc,
            appendHead_append, appendHead_append,
            ← tokensOfChunks_nonws_cons c rest hcf, hchunks]
          simp [tokensOfChunks, hs']

theorem consHead_appendHead (c : Char) (y : Str) (r : List Str) :
    consHead c (appendHead y r) = appendHead (c :: y) r := by
  cases r <;> simp [consHead, appendHead]

theorem splitSepRuns_eq_chunks : ∀ s, splitSepRuns isWS s = tokensOfChunksB (chunks s)
  | [] => by simp [splitSepRuns, chunks, tokensOfChunksB]
  | [c] => by
    by_cases hc : isWS c = true
    · simp [splitSepRuns, chunks, tokensOfChunksB, hc]
    · have hcf : isWS c = false := by simpa using hc
      simp [splitSepRuns, chunks, tokensOfChunksB, hcf, appendHead]
  | c :: d :: rest => by
    have hIH := splitSepRuns_eq_chunks (d :: rest)
    rcases chunks_head_tag d rest with ⟨run, rs, hshape, -⟩
    by_cases hc : isWS c = true
    · by_cases hd : isWS d = true
      · rw [splitSepRuns]
        simp only [hc, hd, if_true]
        rw [hIH, hshape]
        conv_rhs => rw [chunks]
        rw [hshape]
        have htag : isWS c = isWS d := by rw [hc, hd]
        simp [hd, htag, tokensOfChunksB]
      · have hdf : isWS d = false := by simpa using hd
        rw [splitSepRuns]
        simp only [hc, hdf, if_true, Bool.false_eq_true, if_false]
        rw [hIH]
        conv_rhs => rw [chunks]
        rw [hshape]
        have htag : ¬(isWS c = isWS d) := by rw [hc, hdf]; simp
        simp [htag, hc, hdf, tokensOfChunksB]
    · have hcf : isWS c = false := by simpa using hc
      by_cases hd : isWS d = true
      · rw [splitSepRuns]
        simp only [hcf, Bool.false_eq_true, if_false]
        rw [hIH]
        conv_rhs => rw [chunks]
        rw [hshape]
        have htag : ¬(isWS c = isWS d) := by rw [hcf, hd]; simp
        simp only [hd, htag, if_false, hcf]
        rw [consHead_eq_appendHead]
        simp [tokensOfChunksB, hshape, hd]
      · have hdf : isWS d = false := by simpa using hd
        rw [splitSepRuns]
        simp only [hcf, Bool.false_eq_true, if_false]
        rw [hIH, hshape]
        conv_rhs => rw [chunks]
        rw [hshape]
        have htag : isWS c = isWS d := by rw [hcf, hdf]
        simp only [htag, hdf, if_pos rfl, tokensOfChunksB, hcf]
        rw [consHead_appendHead]

theorem chunks_wf : ∀ s, chunksWF (chunks s)
  | [] => trivial
  | c :: t => by
    have hwf := chunks_wf t
    cases hct : chunks t with
    | nil =>
      simp only [chunks, hct, chunksWF, headTagIsNot]
      refine ⟨by simp, ?_, trivial, trivial⟩
      intro ch hch
      rcases List.mem_cons.mp hch with h | h
      · subst h; rfl
      · simp at h
    | cons p rs =>
      obtain ⟨b, run⟩ := p
      rw [hct] at hwf
      obtain ⟨hne, hchars, htag, hwfrs⟩ := hwf
      by_cases hb : isWS c = b
      · simp only [chunks, hct, if_pos hb, chunksWF]
        refine ⟨by simp, ?_, htag, hwfrs⟩
        intro ch hch
        rcases List.mem_cons.mp hch with h | h
        · subst h; exact hb
        · exact hchars ch h
      · simp only [chunks, hct, if_neg hb, chunksWF, headTagIsNot]
        refine ⟨by simp, ?_, fun h => hb h.symm, hne, hchars, htag, hwfrs⟩
        intro ch hch
        rcases List.mem_cons.mp hch with h | h
        · subst h; rfl
        · simp at h

theorem dropWhile_of_not_head (p : Char → Bool) :
    ∀ (t : Str), (∀ ch ∈ t, p ch = false) → t.dropWhile p = t
  | [], _ => rfl
  | c :: t, h => by
    simp [List.dropWhile_cons, h c (List.mem_cons_self _ _)]

theorem trimStr_of_no_ws (t : Str) (h : ∀ ch ∈ t, isWS ch = false) : trimStr t = t := by
  unfold trimStr
  rw [dropWhile_of_not_head isWS t h,
    dropWhile_of_not_head isWS t.reverse (fun ch hch => h ch (List.mem_reverse.mp hch)),
    List.reverse_reverse]

theorem tokensOfChunksB_head (rest : List (Bool × Str)) (h : headTagIsNot false rest) :
    ∃ ts, tokensOfChunksB rest = [] :: ts := by
  cases rest with
  | nil => exact ⟨[], rfl⟩
  | cons p rs =>
    obtain ⟨b, run⟩ := p
    cases b with
    | true => exact ⟨tokensOfChunksB rs, rfl⟩
    | false => exact absurd rfl h

theorem pipelineB : ∀ (cl : List (Bool × Str)), chunksWF cl →
    ((tokensOfChunksB cl).map trimStr).filter (fun t => t ≠ []) = wordsOfChunks cl
  | [], _ => by simp [tokensOfChunksB, wordsOfChunks, trimStr]
  | (true, run) :: rest, hwf => by
    obtain ⟨-, -, -, hwfr⟩ := (by exact hwf :
      run ≠ [] ∧ (∀ ch ∈ run, isWS ch = true) ∧ headTagIsNot true rest ∧ chunksWF rest)
    have hIH := pipelineB rest hwfr
    simp only [tokensOfChunksB, List.map_cons, List.filter_cons]
    simp only [trimStr, List.dropWhile_nil, List.reverse_nil]
    simpa [wordsOfChunks] using hIH
  | (false, run) :: rest, hwf => by
    obtain ⟨hne, hchars, htag, hwfr⟩ := (by exact hwf :
      run ≠ [] ∧ (∀ ch ∈ run, isWS ch = false) ∧ headTagIsNot false rest ∧ chunksWF rest)
    have hIH := pipelineB rest hwfr
    obtain ⟨ts, hts⟩ := tokensOfChunksB_head rest htag
    rw [hts] at hIH
    simp only [List.map_cons, List.filter_cons] at hIH
    rw [show trimStr [] = ([] : Str) from rfl] at hIH
    simp at hIH
    simp only [tokensOfChunksB, hts, appendHead, List.append_nil, List.map_cons,
      List.filter_cons]
    rw [trimStr_of_no_ws run hchars]
    simp [hne, wordsOfChunks, hIH]

theorem lineCellsB_eq_words (l : Str) : lineCellsB l = wordsOfChunks (chunks l) := by
  unfold lineCellsB
  rw [splitSepRuns_eq_chunks]
  exact pipelineB (chunks l) (chunks_wf l)

/-! ## Trimming and anchor-entry facts -/

theorem dropWhile_dropWhile (p : Char → Bool) :
    ∀ l : Str, (l.dropWhile p).dropWhile p = l.dropWhile p
  | [] => rfl
  | c :: t => by
    by_cases h : p c = true
    · simp only [List.dropWhile_cons, h, if_true]
      exact dropWhile_dropWhile p t
    · simp [List.dropWhile_cons, h]

theorem length_dropWhile_le' (p : Char → Bool) :
    ∀ l : Str, (l.dropWhile p).length ≤ l.length
  | [] => le_refl _
  | c :: t => by
    by_cases h : p c = true
    · simp only [List.dropWhile_cons, h, if_true, List.length_cons]
      exact le_trans (length_dropWhile_le' p t) (by omega)
    · simp [List.dropWhile_cons, h]

theorem dropWhile_append_self (p : Char → Bool) (a b : Str)
    (h : (a ++ b).dropWhile p = a ++ b) : a.dropWhile p = a := by
  cases a with
  | nil => rfl
  | cons c t =>
    rw [List.cons_append, List.dropWhile_cons] at h
    by_cases hc : p c = true
    · rw [if_pos hc] at h
      have hlen := congrArg List.length h
      have hle := length_dropWhile_le' p (t ++ b)
      simp only [List.length_cons] at hlen
      omega
    · simp [List.dropWhile_cons, hc]

theorem trimStr_trimStr (s : Str) : trimStr (trimStr s) = trimStr s := by
  show ((((((s.dropWhile isWS).reverse.dropWhile isWS).reverse).dropWhile isWS).reverse).dropWhile isWS).reverse
      = ((s.dropWhile isWS).reverse.dropWhile isWS).reverse
  set t := s.dropWhile isWS with ht
  have hd : t.dropWhile isWS = t := by
    rw [ht]
    exact dropWhile_dropWhile isWS s
  set m := (t.reverse.dropWhile isWS).reverse with hm
  have hsplit : t = m ++ (t.reverse.takeWhile isWS).reverse := by
    rw [hm]
    conv_lhs => rw [← List.reverse_reverse t]
    conv_lhs => rw [← List.takeWhile_append_dropWhile (p := isWS) (l := t.reverse)]
    rw [List.reverse_append]
  have hm_drop : m.dropWhile isWS = m := by
    apply dropWhile_append_self isWS m ((t.reverse.takeWhile isWS).reverse)
    rw [← hsplit]
    exact hd
  rw [hm_drop]
  have hmrev : m.reverse = t.reverse.dropWhile isWS := by
    rw [hm, List.reverse_reverse]
  rw [hmrev, dropWhile_dropWhile isWS t.reverse, ← hmrev, List.reverse_reverse]

theorem anchorAt_parseAnchor (fv : Option Str) (k : Nat) (a : Str)
    (h : anchorAt (parseAnchor fv) k = some a) : a ≠ [] ∧ trimStr a = a := by
  cases hp : parseAnchor fv with
  | none => simp [anchorAt, hp] at h
  | some l =>
    simp only [anchorAt, hp] at h
    cases hl : l[k]? with
    | none => simp [hl] at h
    | some v =>
      simp only [hl] at h
      by_cases hv : v = []
      · rw [if_pos hv] at h; cases h
      · rw [if_neg hv] at h
        have hva : v = a := Option.some.inj h
        subst hva
        refine ⟨hv, ?_⟩
        have hmem : v ∈ l := by
          rcases List.getElem?_eq_some.mp hl with ⟨hlt, hget⟩
          exact hget ▸ List.getElem_mem hlt
        cases fv with
        | none => cases hp
        | some v0 =>
          by_cases hv0 : v0 = []
          · simp [parseAnchor, hv0] at hp
          · simp only [parseAnchor, if_neg hv0] at hp
            have hleq : l = ((splitSepRuns isAnchorSep v0).map trimStr).filter
                (fun t => t ≠ []) := (Option.some.inj hp).symm
            rw [hleq] at hmem
            rcases List.mem_filter.mp hmem with ⟨hmm, -⟩
            rcases List.mem_map.mp hmm with ⟨b, -, hb⟩
            rw [← hb, trimStr_trimStr]

/-! ## Classification facts -/

theorem classifyCell_valid (r : Nat) (v : Str) (hv : v ≠ []) (ht : trimStr v ≠ [])
    (hnum : isValidNumber v = true) :
    classifyCell r (some v) = some ⟨trimStr v, false⟩ := by
  simp [classifyCell, hv, ht, hnum]

theorem classifyCell_row0 (v : Str) (hv : v ≠ []) (ht : trimStr v ≠ []) :
    classifyCell 0 (some v) = some ⟨trimStr v, false⟩ := by
  by_cases hnum : isValidNumber v = true
  · simp [classifyCell, hv, ht, hnum]
  · simp [classifyCell, hv, ht, hnum]

/-! ## Facts about cleaning and parsing plain digit strings (for C10) -/

theorem takeWhile_all (p : Char → Bool) :
    ∀ l : Str, (∀ c ∈ l, p c = true) → l.takeWhile p = l ∧ l.dropWhile p = []
  | [], _ => ⟨rfl, rfl⟩
  | c :: t, h => by
    have hc := h c (List.mem_cons_self _ _)
    have ht := takeWhile_all p t (fun x hx => h x (List.mem_cons_of_mem _ hx))
    simp [List.takeWhile_cons, List.dropWhile_cons, hc, ht.1, ht.2]

theorem digit_not_sign (c : Char) (h : isDigitCh c = true) : c ≠ '-' ∧ c ≠ '+' := by
  unfold isDigitCh at h
  simp only [Bool.and_eq_true, decide_eq_true_eq] at h
  constructor <;> rintro rfl <;> simp [Char.le_def] at h

theorem parseFloatQ_digits (x : Str) (hx : x ≠ []) (hd : ∀ c ∈ x, isDigitCh c = true) :
    parseFloatQ x = some (Frac.ofNat (natOfDigits x)) := by
  obtain ⟨c, t, rfl⟩ : ∃ c t, x = c :: t := by
    cases x with
    | nil => exact absurd rfl hx
    | cons c t => exact ⟨c, t, rfl⟩
  have hc := hd c (List.mem_cons_self _ _)
  obtain ⟨hc1, hc2⟩ := digit_not_sign c hc
  obtain ⟨htake, hdrop⟩ := takeWhile_all isDigitCh (c :: t) hd
  have hsign : signSplit (c :: t) = (false, c :: t) := by
    unfold signSplit
    split
    · next r heq =>
      injection heq with h1 h2
      exact absurd h1 hc1
    · next r heq =>
      injection heq with h1 h2
      exact absurd h1 hc2
    · rfl
  simp only [parseFloatQ, hsign]
  simp only [mantissaOf, htake, hdrop]
  simp [expSuffixOf, applySign]

theorem digit_facts (c : Char) (h : isDigitCh c = true) :
    c ≠ ',' ∧ isWS c = false ∧ c ≠ '-' := by
  unfold isDigitCh at h
  simp only [Bool.and_eq_true, decide_eq_true_eq] at h
  refine ⟨?_, ?_, ?_⟩
  · rintro rfl
    exact absurd h.1 (by decide)
  · have h1 : c ≠ ' ' := by rintro rfl; exact absurd h.1 (by decide)
    have h2 : c ≠ '\t' := by rintro rfl; exact absurd h.1 (by decide)
    have h3 : c ≠ '\n' := by rintro rfl; exact absurd h.1 (by decide)
    have h4 : c ≠ '\r' := by rintro rfl; exact absurd h.1 (by decide)
    have h5 : c ≠ '\x0b' := by rintro rfl; exact absurd h.1 (by decide)
    have h6 : c ≠ '\x0c' := by rintro rfl; exact absurd h.1 (by decide)
    simp [isWS, h1, h2, h3, h4, h5, h6]
  · rintro rfl
    exact absurd h.1 (by decide)

theorem cleanNumericValue_neg_digits (x : Str) (hx : x ≠ [])
    (hd : ∀ c ∈ x, isDigitCh c = true) : cleanNumericValue ('-' :: x) = x := by
  have hfilter : stripCommaWs ('-' :: x) = '-' :: x := by
    unfold stripCommaWs
    rw [List.filter_eq_self.mpr]
    intro a ha
    rcases List.mem_cons.mp ha with rfl | ha
    · decide
    · obtain ⟨h1, h2, -⟩ := digit_facts a (hd a ha)
      simp [h1, h2]
  have hnohyph : ∀ t : Str, (∀ c ∈ t, isDigitCh c = true) →
      t.dropWhile (fun ch => ch = '-') = t := by
    intro t hdt
    apply dropWhile_of_not_head
    intro ch hch
    obtain ⟨-, -, h3⟩ := digit_facts ch (hdt ch hch)
    simp [h3]
  unfold cleanNumericValue
  rw [hfilter]
  have hdrop1 : ('-' :: x).dropWhile (fun ch => ch = '-') = x := by
    rw [List.dropWhile_cons]
    simp only [decide_eq_true_eq, if_pos rfl]
    exact hnohyph x hd
  rw [hdrop1, hnohyph x.reverse (fun c hc => hd c (List.mem_reverse.mp hc)),
    List.reverse_reverse]

/-! ## The anchor-pair branch of `interpolateValue` (for C2) -/

theorem anchorPairFmt_eq_amended (f l : Str) (fn ln : Frac)
    (hf : parseFloatQ (cleanNumericValue f) = some fn)
    (hl : parseFloatQ (cleanNumericValue l) = some ln) (row totalRows : Nat) :
    anchorPairFmt f l fn ln row totalRows = amendedAnchorFmt f l row totalRows := by
  simp only [anchorPairFmt, amendedAnchorFmt, hf, hl, Option.getD_some]
  by_cases hdec : (includesDot (trimStr f) || includesDot (trimStr l)) = true
  · simp only [hdec, if_true]
  · have hd2 : (includesDot (trimStr f) || includesDot (trimStr l)) = false := by
      simpa using hdec
    simp only [hd2, Bool.false_eq_true, if_false]
    by_cases hp : (fn.isPos && ln.isPos) = true
    · simp only [hp, if_true]
      by_cases hlen : ((decide ((intToStr (roundJS ln)).length < (intToStr (roundJS fn)).length))
          && decide (1 < (intToStr (roundJS fn)).length)) = true
      · simp only [Bool.true_and, hlen, if_true]
        simp only [Bool.and_eq_true, decide_eq_true_eq] at hlen
        rw [if_pos hlen]
      · simp only [Bool.true_and, hlen, Bool.false_eq_true, if_false]
        rw [if_neg (fun hcon => hlen (by simp [hcon.1, hcon.2]))]
    · simp only [hp, Bool.false_eq_true, if_false, Bool.false_and]

theorem interpolateValue_anchor_pair (g : Grid) (fa la : Option (List Str))
    (row col : Nat) (f l : Str)
    (hfa : anchorAt fa col = some f) (hla : anchorAt la col = some l)
    (hvf : isValidNumber f = true) (hvl : isValidNumber l = true) :
    interpolateValue g row col fa la
      = amendedAnchorFmt f l row g.length := by
  obtain ⟨fn, hfn⟩ := Option.isSome_iff_exists.mp hvf
  obtain ⟨ln, hln⟩ := Option.isSome_iff_exists.mp hvl
  have hvf' : isValidNumber f = true := hvf
  have hvl' : isValidNumber l = true := hvl
  simp only [interpolateValue, hfa, hla, hvf, hvl, Bool.and_self, if_true, hfn, hln]
  exact anchorPairFmt_eq_amended f l fn ln hfn hln row g.length

/-! ## The degenerate fallbacks of `interpolateValue` (for C4 and C10) -/

theorem afterPair_invalid (firstA lastA : Option Str)
    (h1 : ∀ v, firstA = some v → isValidNumber v = false)
    (h2 : ∀ v, lastA = some v → isValidNumber v = false) :
    afterPair firstA lastA none none = ['0'] := by
  have hanch : afterPair.afterAnchors none none = ['0'] := rfl
  have hfirst : afterPair.afterFirst lastA none none = ['0'] := by
    cases hB : lastA with
    | none => rfl
    | some lv =>
      simp only [afterPair.afterFirst, h2 lv hB, Bool.false_eq_true, if_false]
      exact hanch
  cases hA : firstA with
  | none =>
    simp only [afterPair]
    exact hfirst
  | some fv =>
    simp only [afterPair, h1 fv hA, Bool.false_eq_true, if_false]
    exact hfirst

theorem interpolateValue_no_sources (g : Grid) (r c : Nat) (fa la : Option (List Str))
    (hfa : ∀ v, anchorAt fa c = some v → isValidNumber v = false)
    (hla : ∀ v, anchorAt la c = some v → isValidNumber v = false)
    (hab : findAbove g c r = none) (hbe : findBelow g c r = none) :
    interpolateValue g r c fa la = ['0'] := by
  have hmain : ∀ (fA lA : Option Str),
      (∀ v, fA = some v → isValidNumber v = false) →
      (∀ v, lA = some v → isValidNumber v = false) →
      interpolateFallback g r c fA lA = ['0'] := by
    intro fA lA h1 h2
    simp only [interpolateFallback, hab, hbe]
    exact afterPair_invalid fA lA h1 h2
  simp only [interpolateValue]
  cases hA : anchorAt fa c with
  | none =>
    exact hmain none (anchorAt la c) (by simp) hla
  | some fv =>
    have hfv := hfa fv hA
    cases hB : anchorAt la c with
    | none =>
      exact hmain (some fv) none
        (fun v hv => by cases hv; exact hfv) (by simp)
    | some lv =>
      simp only [hfv, Bool.false_and, Bool.false_eq_true, if_false]
      exact hmain (some fv) (some lv)
        (fun v hv => by cases hv; exact hfv)
        (fun v hv => by cases hv; exact hla lv hB)

theorem effectiveCellValue_row0 (sourceRow : List Str) (tr k : Nat)
    (fa la : Option (List Str)) (a : Str) (ha : anchorAt fa k = some a) :
    effectiveCellValue sourceRow tr 0 k fa la = some a := by
  simp [effectiveCellValue, ha]

theorem effectiveCellValue_lastrow (sourceRow : List Str) (tr k : Nat)
    (fa la : Option (List Str)) (a : Str) (htr : 2 ≤ tr)
    (ha : anchorAt la k = some a) :
    effectiveCellValue sourceRow tr (tr - 1) k fa la = some a := by
  have h0 : ¬(tr - 1 = 0) := by omega
  simp [effectiveCellValue, h0, ha]

theorem resolvedCell_of_present (g : Grid) (fa la : Option (List Str)) (r c : Nat)
    (x : TableCell) (h : entry? g r c = some (some x)) :
    resolvedCell g fa la r c = x := by
  unfold resolvedCell
  rw [getCell_eq_entry?, h]
  rfl

theorem getFinal_classified (text : Str) (cols rows : Nat) (fv lv : Option Str)
    (r c : Nat) (hraw : rawTableOf text cols ≠ []) (hr : r < rows) (hc : c < cols)
    (x : TableCell)
    (hclass : classifyCell r (effectiveCellValue (((rawTableOf text cols).take rows)[r]?.getD [])
        rows r c (parseAnchor fv) (parseAnchor lv)) = some x) :
    getFinal (parseTextToTable text cols rows fv lv) r c = some x := by
  rw [getFinal_parse text cols rows fv lv hraw r c hr hc]
  congr 1
  apply resolvedCell_of_present
  rw [normalizedOf, entry?_buildNormalized _ rows cols r c _ _ hr hc, hclass]

theorem splitACells_tokens (l : Str) : splitACells l = tokensOfChunks (chunks l) := by
  have h := splitAAux_eq l [] [] (fun ch hch => absurd hch (List.not_mem_nil ch))
  rw [List.reverse_nil, List.nil_append] at h
  rw [splitACells, h, appendHead_nil_of_ne _ (tokensOfChunks_ne_nil _)]

/-! ## The claims -/

/-- Claim C1: for every input text and every valid dimensions config
(`expectedColumns ∈ [1,50]`, `expectedRows ∈ [1,100]`), with or without
anchor strings, `parseTextToTable` returns a grid with exactly
`expectedRows` rows, each with exactly `expectedColumns` cells.  (In this
typed embedding every cell of the result is a `TableCell`, i.e. a record
with a string `value` and boolean `interpolated` flag, so "no cell is
null/undefined" is exactly the statement that no entry is lost: every row
retains full length `expectedColumns` after the `null`-stripping pass.) -/
theorem C1_shape_invariant (text : Str) (fv lv : Option Str) (cols rows : Nat)
    (h1 : 1 ≤ cols) (h2 : cols ≤ 50) (h3 : 1 ≤ rows) (h4 : rows ≤ 100) :
    (parseTextToTable text cols rows fv lv).length = rows ∧
    ∀ row ∈ parseTextToTable text cols rows fv lv, row.length = cols :=
  ⟨parse_length text cols rows fv lv h3, parse_row_length text cols rows fv lv⟩

theorem C1_shape_invariant_witness :
    (parseTextToTable ['5', ' ', '6', '\n', '7'] 3 2 none none).length = 2 ∧
    ∀ row ∈ parseTextToTable ['5', ' ', '6', '\n', '7'] 3 2 none none, row.length = 3 :=
  C1_shape_invariant ['5', ' ', '6', '\n', '7'] none none 3 2
    (by omega) (by omega) (by omega) (by omega)

/-- Claim C2 (counterexample): the claim's formatting rule zero-pads the
integer result whenever the anchors' lengths differ or either starts with
`0`, padded to the longer anchor's digit count; the code instead pads only
when the FIRST anchor's rounded value has strictly more digits than the
last's.  With anchors `"2"` and `"100"` over 3 rows at row 1 the code
returns `"51"` while the claim's rule gives `"051"`. -/
theorem C2_counterexample :
    interpolateValue [[none], [none], [none]] 1 0 (some [['2']]) (some [['1', '0', '0']])
      = ['5', '1']
    ∧ claimAnchorFmt ['2'] ['1', '0', '0'] 1 3 = ['0', '5', '1']
    ∧ (['5', '1'] : Str) ≠ ['0', '5', '1'] :=
  ⟨by decide, by decide, by decide⟩

/-- Claim C2 (amended): for every empty cell whose column has numeric
first- and last-row anchors, `interpolateValue` returns
`first + (last - first) * row / (totalRows - 1)` formatted by the anchors'
apparent precision: if either anchor contains a decimal point the result
keeps the maximum decimal-place count of the two anchors; otherwise it is
rounded to an integer and zero-padded only when both parsed anchors are
positive and the first anchor's rounded value has strictly more digits
than the last's (and more than one digit), to the first anchor's digit
count.  In particular anchors "1.5"/"3.5" over 3 rows give "2.5" at row 1
and anchors "05"/"19" over 5 rows give "12" at row 2. -/
theorem C2_anchor_pair_formatting :
    (∀ (g : Grid) (fa la : Option (List Str)) (row col : Nat) (f l : Str),
      anchorAt fa col = some f → anchorAt la col = some l →
      isValidNumber f = true → isValidNumber l = true → 2 ≤ g.length →
      interpolateValue g row col fa la = amendedAnchorFmt f l row g.length)
    ∧ interpolateValue [[none], [none], [none]] 1 0
        (some [['1', '.', '5']]) (some [['3', '.', '5']]) = ['2', '.', '5']
    ∧ interpolateValue [[none], [none], [none], [none], [none]] 2 0
        (some [['0', '5']]) (some [['1', '9']]) = ['1', '2'] := by
  refine ⟨?_, by decide, by decide⟩
  intro g fa la row col f l hfa hla hvf hvl _
  exact interpolateValue_anchor_pair g fa la row col f l hfa hla hvf hvl

theorem C2_anchor_pair_formatting_witness :
    interpolateValue [[none], [none], [none]] 1 0 (some [['2']]) (some [['8']])
      = amendedAnchorFmt ['2'] ['8'] 1 3 :=
  C2_anchor_pair_formatting.1 [[none], [none], [none]] (some [['2']]) (some [['8']])
    1 0 ['2'] ['8'] (by decide) (by decide) (by decide) (by decide) (by decide)

/-- Claim C3: only cells with `interpolated = false` are ever used as the
`above`/`below` neighbour sources (anchors are separate arguments and are
fixed): `interpolateValue` returns the same value on any two grids of
equal height that agree on their non-interpolated cells, however their
interpolated (or empty) cells differ. -/
theorem C3_only_non_interpolated_sources (g₁ g₂ : Grid) (hlen : g₁.length = g₂.length)
    (hview : ∀ r c, srcView g₁ r c = srcView g₂ r c) (r c : Nat)
    (fa la : Option (List Str)) :
    interpolateValue g₁ r c fa la = interpolateValue g₂ r c fa la :=
  interpolateValue_congr g₁ g₂ hlen hview r c fa la

theorem C3_only_non_interpolated_sources_witness :
    interpolateValue [[some ⟨['1'], false⟩], [some ⟨['9', '9'], true⟩], [none]] 2 0 none none
      = interpolateValue [[some ⟨['1'], false⟩], [some ⟨['7'], true⟩], [none]] 2 0 none none :=
  C3_only_non_interpolated_sources
    [[some ⟨['1'], false⟩], [some ⟨['9', '9'], true⟩], [none]]
    [[some ⟨['1'], false⟩], [some ⟨['7'], true⟩], [none]] rfl
    (fun r c => by
      match r, c with
      | 0, 0 => rfl
      | 0, _ + 1 => rfl
      | 1, 0 => rfl
      | 1, _ + 1 => rfl
      | 2, 0 => rfl
      | 2, _ + 1 => rfl
      | _ + 3, _ => rfl)
    2 0 none none


/-- Claim C4 (counterexample): the claim says an empty cell in a column
with no numeric context (no numeric anchor, no cell passing the numeric
test) is filled with `"0"`, and that every filled value is numeric-looking.
The code's fallback chain instead returns the raw `above` value whatever it
is: below the text cell `"Name"` (which fails the numeric test, with no
anchors at all) the gap is filled with `"Name"`, not `"0"` and not
numeric-looking. -/
theorem C4_counterexample :
    getFinal (parseTextToTable ('N' :: 'a' :: 'm' :: 'e' :: []) 1 2 none none) 1 0
      = some ⟨('N' :: 'a' :: 'm' :: 'e' :: []), true⟩
    ∧ isValidNumber ('N' :: 'a' :: 'm' :: 'e' :: []) = false
    ∧ anchorAt (parseAnchor none) 0 = none
    ∧ (('N' :: 'a' :: 'm' :: 'e' :: []) : Str) ≠ ['0'] :=
  ⟨by decide, by decide, by decide, by decide⟩

/-- Claim C4 (amended): an empty cell is filled with `"0"` only when the
column offers no source at all: no anchor passing the numeric test and no
non-interpolated, non-empty cell above or below (a non-numeric neighbour
value is copied verbatim by the fallback chain).  Every empty-marker cell
of the normalised grid is marked `interpolated = true` in the final
table. -/
theorem C4_default_zero_and_flag :
    (∀ (g : Grid) (r c : Nat) (fa la : Option (List Str)),
      (∀ v, anchorAt fa c = some v → isValidNumber v = false) →
      (∀ v, anchorAt la c = some v → isValidNumber v = false) →
      findAbove g c r = none → findBelow g c r = none →
      interpolateValue g r c fa la = ['0'])
    ∧ (∀ (text : Str) (cols rows : Nat) (fv lv : Option Str) (r c : Nat),
      rawTableOf text cols ≠ [] → r < rows → c < cols →
      entry? (normalizedOf text cols rows fv lv) r c = some none →
      (getFinal (parseTextToTable text cols rows fv lv) r c).map
          (fun cell => cell.interpolated) = some true) := by
  refine ⟨fun g r c fa la h1 h2 h3 h4 =>
    interpolateValue_no_sources g r c fa la h1 h2 h3 h4, ?_⟩
  intro text cols rows fv lv r c hraw hr hc hent
  rw [getFinal_parse text cols rows fv lv hraw r c hr hc]
  have hres : resolvedCell (normalizedOf text cols rows fv lv)
      (parseAnchor fv) (parseAnchor lv) r c
      = ⟨interpolateValue (normalizedOf text cols rows fv lv) r c
          (parseAnchor fv) (parseAnchor lv), true⟩ := by
    unfold resolvedCell
    rw [getCell_eq_entry?, hent]
    rfl
  rw [hres]
  rfl

theorem C4_default_zero_and_flag_witness :
    interpolateValue [[none]] 0 0 none none = ['0'] :=
  C4_default_zero_and_flag.1 [[none]] 0 0 none none
    (fun v h => Option.noConfusion h) (fun v h => Option.noConfusion h)
    (by decide) (by decide)

/-- Claim C5 (counterexample): the claim says the cell at `(0, k)` equals
the CLEANED anchor value; the code stores the anchor entry verbatim (row 0
keeps text as-is).  With OCR text `"7"` and first-row anchor `"-5"` the
returned cell at `(0, 0)` is `"-5"`, while the cleaned value is `"5"`. -/
theorem C5_counterexample :
    getFinal (parseTextToTable ['7'] 1 2 (some ['-', '5']) none) 0 0
      = some ⟨['-', '5'], false⟩
    ∧ cleanNumericValue ['-', '5'] = ['5']
    ∧ (['-', '5'] : Str) ≠ ['5'] :=
  ⟨by decide, by decide, by decide⟩

/-- Claim C5 (amended): when the OCR text tokenises to at least one raw row
(otherwise the placeholder grid ignores anchors), a first-row anchor entry
for column `k < expectedColumns` is stored verbatim (the anchor parsing has
already trimmed it) at `(0, k)` with `interpolated = false`, whatever the
OCR text held there; symmetrically a last-row anchor entry that itself
passes the numeric test is stored verbatim at `(expectedRows - 1, k)` when
`expectedRows ≥ 2`. -/
theorem C5_anchor_priority :
    (∀ (text : Str) (cols rows : Nat) (fv lv : Option Str) (k : Nat) (a : Str),
      rawTableOf text cols ≠ [] → 1 ≤ rows → k < cols →
      anchorAt (parseAnchor fv) k = some a →
      getFinal (parseTextToTable text cols rows fv lv) 0 k = some ⟨a, false⟩)
    ∧ (∀ (text : Str) (cols rows : Nat) (fv lv : Option Str) (k : Nat) (a : Str),
      rawTableOf text cols ≠ [] → 2 ≤ rows → k < cols →
      anchorAt (parseAnchor lv) k = some a → isValidNumber a = true →
      getFinal (parseTextToTable text cols rows fv lv) (rows - 1) k = some ⟨a, false⟩) := by
  constructor
  · intro text cols rows fv lv k a hraw hrows hk ha
    obtain ⟨hane, hatrim⟩ := anchorAt_parseAnchor fv k a ha
    have htne : trimStr a ≠ [] := by rw [hatrim]; exact hane
    apply getFinal_classified text cols rows fv lv 0 k hraw hrows hk
    rw [effectiveCellValue_row0 _ rows k _ _ a ha, classifyCell_row0 a hane htne, hatrim]
  · intro text cols rows fv lv k a hraw hrows hk ha hval
    obtain ⟨hane, hatrim⟩ := anchorAt_parseAnchor lv k a ha
    have htne : trimStr a ≠ [] := by rw [hatrim]; exact hane
    apply getFinal_classified text cols rows fv lv (rows - 1) k hraw (by omega) hk
    rw [effectiveCellValue_lastrow _ rows k _ _ a hrows ha,
      classifyCell_valid (rows - 1) a hane htne hval, hatrim]

theorem C5_anchor_priority_witness :
    getFinal (parseTextToTable ['7'] 1 2 (some ['8']) none) 0 0 = some ⟨['8'], false⟩ :=
  C5_anchor_priority.1 ['7'] 1 2 (some ['8']) none 0 ['8']
    (by decide) (by decide) (by decide) (by decide)

/-- Claim C6: Strategy A splits every non-blank line exactly at the maximal
whitespace runs of length ≥ 2 or containing a tab (`tokensOfChunks` over the
run decomposition `chunks`); Strategy B splits at every whitespace run
(`wordsOfChunks`); and the selection rule keeps Strategy A's entire output
unless its maximum row length is strictly below `0.7 × expectedColumns`
(stated exactly as `10 · maxColsFound < 7 · expectedColumns`), in which case
every line is re-split by Strategy B. -/
theorem C6_strategy_selection :
    (∀ l : Str, splitACells l = tokensOfChunks (chunks l))
    ∧ (∀ l : Str, lineCellsB l = wordsOfChunks (chunks l))
    ∧ (∀ (text : Str) (cols : Nat),
        rawTableOf text cols =
          if 10 * (((strategyA (linesOf text)).map List.length).foldr max 0) < 7 * cols
          then strategyB (linesOf text) else strategyA (linesOf text)) :=
  ⟨splitACells_tokens, lineCellsB_eq_words, fun _ _ => rfl⟩

/-- Claim C7 (counterexample): the claim says every numeric token is stored
CLEANED (commas stripped); the code stores the trimmed token verbatim.  The
token `"1,234"` passes the numeric test, cleans to `"1234"`, yet the stored
cell value is `"1,234"`. -/
theorem C7_counterexample :
    getFinal (parseTextToTable
        ('9' :: '\n' :: '1' :: ',' :: '2' :: '3' :: '4' :: []) 1 2 none none) 1 0
      = some ⟨('1' :: ',' :: '2' :: '3' :: '4' :: []), false⟩
    ∧ isValidNumber ('1' :: ',' :: '2' :: '3' :: '4' :: []) = true
    ∧ cleanNumericValue ('1' :: ',' :: '2' :: '3' :: '4' :: [])
        = ('1' :: '2' :: '3' :: '4' :: [])
    ∧ (('1' :: ',' :: '2' :: '3' :: '4' :: []) : Str)
        ≠ ('1' :: '2' :: '3' :: '4' :: []) :=
  ⟨by decide, by decide, by decide, by decide⟩

/-- Claim C7 (amended): every token that passes the numeric test (at any
row, including anchor-overridden tokens) is stored as the TRIMMED ORIGINAL
token with `interpolated = false` — not the cleaned numeric string, which
the code computes only for interpolation fallbacks ("Keep original
format"). -/
theorem C7_numeric_token_storage (text : Str) (cols rows : Nat) (fv lv : Option Str)
    (r c : Nat) (v : Str) (hraw : rawTableOf text cols ≠ []) (hr : r < rows) (hc : c < cols)
    (hv : effectiveCellValue (((rawTableOf text cols).take rows)[r]?.getD [])
        rows r c (parseAnchor fv) (parseAnchor lv) = some v)
    (hne : v ≠ []) (htr : trimStr v ≠ []) (hval : isValidNumber v = true) :
    getFinal (parseTextToTable text cols rows fv lv) r c = some ⟨trimStr v, false⟩ := by
  apply getFinal_classified text cols rows fv lv r c hraw hr hc
  rw [hv, classifyCell_valid r v hne htr hval]

theorem C7_numeric_token_storage_witness :
    getFinal (parseTextToTable ('8' :: '\n' :: '7' :: '7' :: []) 1 2 none none) 1 0
      = some ⟨('7' :: '7' :: []), false⟩ := by
  have h := C7_numeric_token_storage ('8' :: '\n' :: '7' :: '7' :: []) 1 2 none none 1 0
    ('7' :: '7' :: []) (by decide) (by decide) (by decide) (by decide)
    (by decide) (by decide) (by decide)
  simpa using h

/-- Claim C8: whenever tokenisation yields no raw rows, `parseTextToTable`
returns the placeholder grid of `createEmptyTable`; in particular for
`text = ""`, 3 columns and 2 rows it is the header row
`"Column 1" "Column 2" "Column 3"` (all interpolated) followed by one row
of three empty interpolated cells. -/
theorem C8_empty_input_placeholder :
    (∀ (text : Str) (cols rows : Nat) (fv lv : Option Str),
      rawTableOf text cols = [] →
      parseTextToTable text cols rows fv lv = createEmptyTable cols rows)
    ∧ parseTextToTable [] 3 2 none none =
        [[⟨('C' :: 'o' :: 'l' :: 'u' :: 'm' :: 'n' :: ' ' :: '1' :: []), true⟩,
          ⟨('C' :: 'o' :: 'l' :: 'u' :: 'm' :: 'n' :: ' ' :: '2' :: []), true⟩,
          ⟨('C' :: 'o' :: 'l' :: 'u' :: 'm' :: 'n' :: ' ' :: '3' :: []), true⟩],
         [⟨[], true⟩, ⟨[], true⟩, ⟨[], true⟩]] := by
  refine ⟨?_, by decide⟩
  intro text cols rows fv lv h
  simp [parseTextToTable, h]

theorem C8_empty_input_placeholder_witness :
    parseTextToTable ['\n'] 2 3 none none = createEmptyTable 2 3 :=
  C8_empty_input_placeholder.1 ['\n'] 2 3 none none (by decide)

/-- Claim C9: the interpolation pass of `parseTextToTable` — the fold of
`fillStep` over the normalised grid — produces the same final grid for any
processing order containing the same set of positions as the row-major
scan, because each gap's value depends only on the `interpolated = false`
cells and the anchors, which the pass never changes. -/
theorem C9_order_independence (text : Str) (cols rows : Nat) (fv lv : Option Str)
    (order : List (Nat × Nat))
    (hperm : ∀ p : Nat × Nat, p ∈ order ↔ p ∈ rowMajor rows cols) :
    order.foldl (fillStep (parseAnchor fv) (parseAnchor lv))
        (normalizedOf text cols rows fv lv)
      = (rowMajor rows cols).foldl (fillStep (parseAnchor fv) (parseAnchor lv))
          (normalizedOf text cols rows fv lv) := by
  rw [foldl_fillStep, foldl_fillStep]
  exact fillTarget_mem_congr _ _ _ _ _ hperm

theorem C9_order_independence_witness :
    (rowMajor 2 2).reverse.foldl (fillStep (parseAnchor none) (parseAnchor none))
        (normalizedOf ['5'] 2 2 none none)
      = (rowMajor 2 2).foldl (fillStep (parseAnchor none) (parseAnchor none))
          (normalizedOf ['5'] 2 2 none none) :=
  C9_order_independence ['5'] 2 2 none none (rowMajor 2 2).reverse
    (fun _ => List.mem_reverse)

/-- Claim C10 (implicit): `cleanNumericValue` strips a leading hyphen, so a
token `"-x"` over a digit string `x` passes the numeric test while its
cleaned form is `x` without the sign; consequently neighbour-pair
interpolation between `"-2"` and `"-4"` computes with the absolute values
(giving `"3"`), and the single-anchor fallback for anchor `"-5"` fills the
gap with `"5"`. -/
theorem C10_hyphen_stripping :
    (∀ x : Str, x ≠ [] → (∀ c ∈ x, isDigitCh c = true) →
      isValidNumber ('-' :: x) = true ∧ cleanNumericValue ('-' :: x) = x)
    ∧ interpolateValue [[none], [none]] 1 0 (some [['-', '5']]) none = ['5']
    ∧ interpolateValue [[some ⟨['-', '2'], false⟩], [none], [some ⟨['-', '4'], false⟩]] 1 0
        none none = ['3'] := by
  refine ⟨?_, by decide, by decide⟩
  intro x hx hd
  have hclean := cleanNumericValue_neg_digits x hx hd
  refine ⟨?_, hclean⟩
  rw [isValidNumber, hclean, parseFloatQ_digits x hx hd]
  rfl

theorem C10_hyphen_stripping_witness :
    isValidNumber ['-', '5'] = true ∧ cleanNumericValue ['-', '5'] = ['5'] :=
  C10_hyphen_stripping.1 ['5'] (by decide) (by decide)
